import Mathlib

/-! # goaci asset preparation (`asset.go`)

A shallow embedding of `asset.go`: placeholder substitution on path strings,
validation of an asset pair, the recursive tree copy and `PrepareAssets`,
over an explicit model of the POSIX filesystem calls the program makes.

Modelling decisions:
* The platform is Unix: the path separator is `/`, the path-list separator `:`.
* Go strings are lists of characters; `len` and slices count characters, which
  agrees with the bytes of Go on ASCII text.
* A Go map is given by its entries in the order in which `range` iterates
  them.
* The filesystem is a set of nodes by canonical path, with the working
  directory and the umask of the process. Path resolution follows symbolic
  links as the kernel does (at most 40). Access permission checks, hard links
  and the limits on the length of names and paths are left out.
* `filepath.Walk` is that of current Go releases: the names of a directory are
  read before the callback is invoked on the directory. Its recursion has a
  budget (`fuel`); a run that uses it up ends with `Res.outOfFuel`, a result
  that only the model has.
* An error built by `fmt.Errorf` is the record of the values formatted into
  its message.
-/

namespace Goaci

/-- A Go string, as the list of its characters. -/
abbrev Str := List Char

/-! ## `strings` -/

/-- The replacement loop of `strings.Replace(s, old, new, -1)` for a non-empty
`old`: scan left to right, replace every leftmost non-overlapping occurrence.
The counter is the number of characters of the occurrence just replaced that
still have to be skipped. -/
def replaceGo (old new : Str) : Nat → Str → Str
  | _, [] => []
  | skip + 1, _ :: cs => replaceGo old new skip cs
  | 0, c :: cs =>
    if old.isPrefixOf (c :: cs) then new ++ replaceGo old new (old.length - 1) cs
    else c :: replaceGo old new 0 cs

/-- Go `strings.Replace(s, old, new, -1)`: `s` when `old == new`; for an empty
`old`, `new` before every character and at the end; otherwise all
non-overlapping occurrences of `old` replaced by `new`. -/
def stringsReplace (s old new : Str) : Str :=
  if old = new then s
  else if old = [] then new ++ s.flatMap (fun c => c :: new)
  else replaceGo old new 0 s

/-! ## `replacePlaceholders` -/

/-- Source `replacePlaceholders` (asset.go:68-76). The Go map is given by its
entries in the order in which this `range` statement iterates them; the
`Debug` calls only log and are left out. -/
def replacePlaceholders (path : Str) (placeholderMapping : List (Str × Str)) : Str :=
  placeholderMapping.foldl (fun newPath e => stringsReplace newPath e.1 e.2) path

/-- A piece of a path: a literal character, or a whole placeholder token
standing for one entry of the mapping. -/
inductive Piece where
  | lit (c : Char)
  | tok (e : Str × Str)
  deriving DecidableEq, Repr

/-- The text of a piece before substitution. -/
def Piece.render : Piece → Str
  | .lit c => [c]
  | .tok e => e.1

/-- The text of a piece after substitution. -/
def Piece.final : Piece → Str
  | .lit c => [c]
  | .tok e => e.2

/-- A piece fits a mapping with marker `mk`: a literal is not the marker, a
token is an entry of the mapping. -/
def Piece.Fits (mk : Char) (m : List (Str × Str)) : Piece → Prop
  | .lit c => c ≠ mk
  | .tok e => e ∈ m

instance (mk : Char) (m : List (Str × Str)) (p : Piece) : Decidable (p.Fits mk m) := by
  cases p <;> unfold Piece.Fits <;> infer_instance

/-- Marker discipline of a mapping: every token is the marker character
followed by text without the marker, no replacement text contains the marker,
and no token is a prefix of another token. -/
def Marked (mk : Char) (m : List (Str × Str)) : Prop :=
  (∀ e ∈ m, e.1.head? = some mk ∧ mk ∉ e.1.tail)
  ∧ (∀ e ∈ m, mk ∉ e.2)
  ∧ (∀ e ∈ m, ∀ e' ∈ m, e.1 <+: e'.1 → e = e')

instance (mk : Char) (m : List (Str × Str)) : Decidable (Marked mk m) := by
  unfold Marked; infer_instance

/-- Substituting one entry in a piece list: its token becomes the literal
characters of its replacement. -/
def substPiece (e : Str × Str) : Piece → List Piece
  | .lit c => [.lit c]
  | .tok e' => if e' = e then e.2.map Piece.lit else [.tok e']

/-- Substituting a list of entries, one after the other, in a piece list. -/
def substAll (es : List (Str × Str)) (ps : List Piece) : List Piece :=
  es.foldl (fun ps e => ps.flatMap (substPiece e)) ps

/-! ## `path/filepath` on Unix -/

/-- Go `strings.Split(s, sep)` for a one-character separator: the parts of `s`
between the separators; a string without separator is its own single part. -/
def splitOn (sep : Char) : Str → List Str
  | [] => [[]]
  | c :: cs =>
    if c = sep then [] :: splitOn sep cs
    else
      match splitOn sep cs with
      | [] => [[c]]
      | p :: ps => (c :: p) :: ps

/-- Go `filepath.SplitList` on Unix: no part for the empty string, otherwise
the parts between the `:` separators. -/
def SplitList (path : Str) : List Str :=
  if path = [] then [] else splitOn ':' path

/-- Go `filepath.IsAbs` on Unix: the path starts with a slash. -/
def IsAbs (path : Str) : Bool :=
  path.head? = some '/'

/-- One element of the scan of `filepath.Clean`: empty and `.` elements are
dropped, `..` removes the last real element (at the root it is dropped, and in
a relative path it is kept when there is nothing to remove), any other element
is appended. -/
def cleanStep (rooted : Bool) (out : List Str) (c : Str) : List Str :=
  if c = [] ∨ c = ['.'] then out
  else if c = ['.', '.'] then
    match out.getLast? with
    | some l => if l = ['.', '.'] then out ++ [c] else out.dropLast
    | none => if rooted then out else [c]
  else out ++ [c]

/-- The elements of a path after the scan of `filepath.Clean`. -/
def cleanComps (path : Str) : List Str :=
  (splitOn '/' path).foldl (cleanStep (IsAbs path)) []

/-- Go `filepath.Clean` on Unix: the shortest path naming the same location by
purely lexical processing; the empty result is `.`. -/
def Clean (path : Str) : Str :=
  let body := List.intercalate ['/'] (cleanComps path)
  if IsAbs path then '/' :: body
  else if body = [] then ['.'] else body

/-- Go `filepath.Join` of two elements: empty elements are ignored, the rest is
joined by a slash and cleaned; all elements empty gives the empty string. -/
def Join (a b : Str) : Str :=
  if a ≠ [] then Clean (a ++ '/' :: b)
  else if b ≠ [] then Clean b
  else []

/-- The prefix of a path up to and including its last slash. -/
def dirPrefix (path : Str) : Str :=
  (path.reverse.dropWhile (fun c => c ≠ '/')).reverse

/-- Go `filepath.Dir` on Unix: everything but the last element, cleaned. -/
def Dir (path : Str) : Str :=
  Clean (dirPrefix path)

/-- Go `os.basename`: trailing slashes removed (the first character is
kept), then everything up to the last slash before the final character
removed. -/
def basename (name : Str) : Str :=
  let kept := match name with
    | [] => []
    | c :: cs => c :: (cs.reverse.dropWhile (fun x => x = '/')).reverse
  match kept.reverse with
  | [] => []
  | last :: before => (before.takeWhile (fun c => c ≠ '/')).reverse ++ [last]

/-! ## The filesystem

The state the program runs against: the nodes of the filesystem by canonical
path, and the working directory and umask of the process. Access permission
checks, hard links, and the limits on path and name length are not modelled.
-/

/-- A canonical path: the names from the root down to the node. -/
abbrev CPath := List Str

/-- The kinds of node that are neither directory, regular file nor symlink. -/
inductive Special where
  | fifo
  | socket
  | device
  deriving DecidableEq, Repr

/-- A filesystem node. -/
inductive Node where
  | dir (perm : Nat)
  | file (perm : Nat) (data : List Nat)
  | symlink (target : Str)
  | special (kind : Special) (perm : Nat)
  deriving DecidableEq, Repr

/-- The filesystem and the process attributes that the system calls use. A
later entry of `nodes` for the same path is shadowed by an earlier one. -/
structure FS where
  nodes : List (CPath × Node)
  cwd : CPath
  umask : Nat
  deriving DecidableEq, Repr

/-- The first entry of an association list for a path. -/
def findNode : List (CPath × Node) → CPath → Option Node
  | [], _ => none
  | (q, n) :: rest, p => if q = p then some n else findNode rest p

/-- The node at a canonical path. -/
def FS.get (fs : FS) (p : CPath) : Option Node :=
  findNode fs.nodes p

/-- The state with a node written at a canonical path. -/
def FS.put (fs : FS) (p : CPath) (n : Node) : FS :=
  { fs with nodes := (p, n) :: fs.nodes }

/-- The permission bits a new node gets: the requested bits without those of
the umask. -/
def FS.masked (fs : FS) (perm : Nat) : Nat :=
  perm &&& (0o777 ^^^ (fs.umask &&& 0o777))

/-- The names of the entries of a directory, sorted as by `sort.Strings`. -/
def FS.childNames (fs : FS) (p : CPath) : List Str :=
  ((fs.nodes.filterMap (fun e =>
      if e.1.dropLast = p then e.1.getLast? else none)).dedup).insertionSort
    (fun a b => a ≤ b)

/-- System error numbers. -/
inductive Errno where
  | enoent
  | eexist
  | enotdir
  | eisdir
  | eloop
  | einval
  | enxio
  deriving DecidableEq, Repr

/-- The result of the lookup of the elements of a path: finished, or a symbolic
link met on the way, to be followed from a directory with the remaining
elements. -/
inductive Lookup where
  | done (r : Except Errno (CPath × Option Node))
  | jump (cur : CPath) (comps : List Str)

/-- Kernel path lookup, one element at a time, from the directory `cur`. The
empty element and `.` stay, `..` goes to the parent, a name goes to the entry of
that name: a directory is entered, a symbolic link is followed unless it is the
last element and `follow` is off, anything else must be the last element. A
missing last element gives its would-be location without a node. -/
def lookupComps (fs : FS) (follow : Bool) : CPath → List Str → Lookup
  | cur, [] => .done (.ok (cur, fs.get cur))
  | cur, c :: rest =>
    if c = [] ∨ c = ['.'] then lookupComps fs follow cur rest
    else if c = ['.', '.'] then lookupComps fs follow cur.dropLast rest
    else
      match fs.get (cur ++ [c]) with
      | none => if rest = [] then .done (.ok (cur ++ [c], none)) else .done (.error .enoent)
      | some (.dir _) => lookupComps fs follow (cur ++ [c]) rest
      | some (.symlink t) =>
        if rest = [] ∧ follow = false then .done (.ok (cur ++ [c], some (.symlink t)))
        else if t = [] then .done (.error .enoent)
        else .jump (if IsAbs t then [] else cur) (splitOn '/' t ++ rest)
      | some n => if rest = [] then .done (.ok (cur ++ [c], some n)) else .done (.error .enotdir)

/-- Path lookup with at most `fuel` symbolic links followed; one more is
`eloop`. -/
def resolveFrom (fs : FS) (follow : Bool) : Nat → CPath → List Str → Except Errno (CPath × Option Node)
  | 0, cur, comps =>
    match lookupComps fs follow cur comps with
    | .done r => r
    | .jump _ _ => .error .eloop
  | fuel + 1, cur, comps =>
    match lookupComps fs follow cur comps with
    | .done r => r
    | .jump cur' comps' => resolveFrom fs follow fuel cur' comps'

/-- Resolution of a path string as the kernel does it (at most 40 symbolic
links): the canonical location it names and the node there, if any. The empty
path names nothing. -/
def FS.resolve (fs : FS) (path : Str) (follow : Bool) : Except Errno (CPath × Option Node) :=
  if path = [] then .error .enoent
  else resolveFrom fs follow 40 (if IsAbs path then [] else fs.cwd) (splitOn '/' path)

/-- Following the symbolic link at the canonical path `p` with target text `t`:
the lookup of the elements of `t`, from the root when `t` is absolute and from
the directory of the link otherwise, with `fuel` symbolic links still allowed,
this one included. -/
def followLink (fs : FS) (fuel : Nat) (p : CPath) (t : Str) :
    Except Errno (CPath × Option Node) :=
  match fuel with
  | 0 => .error .eloop
  | fuel + 1 => resolveFrom fs true fuel (if IsAbs t then [] else p.dropLast) (splitOn '/' t)

/-! ## `os`: file information and errors -/

/-- The type part of a Go `os.FileMode`. -/
inductive Kind where
  | dir
  | regular
  | symlink
  | other (kind : Special)
  deriving DecidableEq, Repr

/-- A Go `os.FileMode`: the type of the node and its permission bits. -/
structure FileMode where
  kind : Kind
  perm : Nat
  deriving DecidableEq, Repr

/-- Go `FileMode.IsDir`. -/
def FileMode.IsDir (m : FileMode) : Bool := m.kind = Kind.dir

/-- Go `FileMode.IsRegular`. -/
def FileMode.IsRegular (m : FileMode) : Bool := m.kind = Kind.regular

/-- The test `mode&os.ModeSymlink == os.ModeSymlink`. -/
def FileMode.isSymlink (m : FileMode) : Bool := m.kind = Kind.symlink

/-- Go `FileMode.Perm`. -/
def FileMode.Perm (m : FileMode) : Nat := m.perm

/-- A Go `os.FileInfo`: the base name of the path that was examined and the
mode of the node. -/
structure FileInfo where
  name : Str
  mode : FileMode
  deriving DecidableEq, Repr

/-- Go `FileInfo.Mode`. -/
def FileInfo.Mode (fi : FileInfo) : FileMode := fi.mode

/-- Go `FileInfo.Name`. -/
def FileInfo.Name (fi : FileInfo) : Str := fi.name

/-- Go `FileInfo.IsDir`. -/
def FileInfo.IsDir (fi : FileInfo) : Bool := fi.mode.IsDir

/-- The mode of a node as `stat` reports it (a symbolic link reports 0777). -/
def Node.mode : Node → FileMode
  | .dir perm => ⟨Kind.dir, perm⟩
  | .file perm _ => ⟨Kind.regular, perm⟩
  | .symlink _ => ⟨Kind.symlink, 0o777⟩
  | .special k perm => ⟨Kind.other k, perm⟩

/-- The system call named in an `os.PathError` or `os.LinkError`. -/
inductive Op where
  | stat
  | lstat
  | mkdir
  | open
  | read
  | readdirent
  | readlink
  | symlink
  deriving DecidableEq, Repr

/-- The errors the program returns. Those of the `os` package carry the
operation, the path and the error number; those built by `fmt.Errorf` carry the
values formatted into their message. The names of the latter are the error
kinds of the specification. -/
inductive Error where
  /-- An `*os.PathError`. -/
  | pathError (op : Op) (path : Str) (errno : Errno)
  /-- An `*os.LinkError`. -/
  | linkError (op : Op) (old new : Str) (errno : Errno)
  /-- "Malformed asset option: '%v' - expected two absolute paths separated with %v" -/
  | MalformedAssetSpec (asset : Str) (separator : Str)
  /-- "Wrong ACI asset: '%v' - ACI asset has to be absolute path" -/
  | InvalidDestPath (ACIAsset : Str)
  /-- "Wrong local asset: '%v' - local asset has to be absolute path" -/
  | InvalidSourcePath (localAsset : Str)
  /-- "Error stating %v: %v" -/
  | SourceNotFound (localAsset : Str) (err : Error)
  /-- "Can't handle local asset %v - not a file, not a dir" -/
  | UnsupportedSourceType (name : Str)
  /-- "Failed to create directory tree for asset '%v': %v" -/
  | DirectoryCreationFailed (asset : Str) (err : Error)
  /-- "Failed to copy assets for '%v': %v" -/
  | CopyFailed (asset : Str) (err : Error)
  /-- "Unsupported node %q in assets, only regular files, directories and
  symlinks are supported." with the mode as an extra argument -/
  | UnsupportedNodeType (path : Str) (mode : FileMode)
  deriving DecidableEq, Repr

/-- The strings formatted into the message of an error, those of the wrapped
error included. -/
def Error.values : Error → List Str
  | .pathError _ path _ => [path]
  | .linkError _ old new _ => [old, new]
  | .MalformedAssetSpec asset separator => [asset, separator]
  | .InvalidDestPath a => [a]
  | .InvalidSourcePath l => [l]
  | .SourceNotFound l err => l :: err.values
  | .UnsupportedSourceType name => [name]
  | .DirectoryCreationFailed asset err => asset :: err.values
  | .CopyFailed asset err => asset :: err.values
  | .UnsupportedNodeType path _ => [path]

/-- How a call ends: with a nil error, with an error, with a run-time panic
(a slice bound out of range, a nil dereference), or, in this model only, with
the recursion budget of the tree walk used up. -/
inductive Res where
  | ok
  | err (e : Error)
  | panic
  | outOfFuel
  deriving DecidableEq, Repr

deriving instance DecidableEq for Except

/-! ## `os`: the system calls -/

/-- Go `os.Stat`: the node a path names, symbolic links followed. -/
def Stat (name : Str) (fs : FS) : Except Error FileInfo :=
  match fs.resolve name true with
  | .error e => .error (.pathError .stat name e)
  | .ok (_, none) => .error (.pathError .stat name .enoent)
  | .ok (_, some n) => .ok ⟨basename name, n.mode⟩

/-- Go `os.Lstat`: as `Stat`, but a symbolic link named by the last element is
not followed. -/
def Lstat (name : Str) (fs : FS) : Except Error FileInfo :=
  match fs.resolve name false with
  | .error e => .error (.pathError .lstat name e)
  | .ok (_, none) => .error (.pathError .lstat name .enoent)
  | .ok (_, some n) => .ok ⟨basename name, n.mode⟩

/-- Go `os.Mkdir`: a new directory with the permission bits left by the umask;
the path must not name anything yet. -/
def Mkdir (name : Str) (perm : Nat) (fs : FS) : Res × FS :=
  match fs.resolve name false with
  | .error e => (.err (.pathError .mkdir name e), fs)
  | .ok (_, some _) => (.err (.pathError .mkdir name .eexist), fs)
  | .ok (p, none) => (.ok, fs.put p (.dir (fs.masked perm)))

/-- The last index `j` of the scan of `os.MkdirAll`: the length of the path
without its trailing slashes and without its last element. -/
def parentEnd (path : Str) : Nat :=
  ((path.reverse.dropWhile (fun c => c = '/')).dropWhile (fun c => c ≠ '/')).length

/-- Go `os.MkdirAll`, the recursion on the parent path bounded by `fuel`. -/
def MkdirAllAux : Nat → Str → Nat → FS → Res × FS
  | 0, _, _, fs => (.outOfFuel, fs)
  | fuel + 1, path, perm, fs =>
    match Stat path fs with
    | .ok dir =>
      if dir.IsDir then (.ok, fs)
      else (.err (.pathError .mkdir path .enotdir), fs)
    | .error _ =>
      let j := parentEnd path
      let parent : Res × FS :=
        if j > 1 then MkdirAllAux fuel (path.take (j - 1)) perm fs else (.ok, fs)
      match parent with
      | (.ok, fs1) =>
        match Mkdir path perm fs1 with
        | (.ok, fs2) => (.ok, fs2)
        | (r, fs2) =>
          match Lstat path fs2 with
          | .ok dir => if dir.IsDir then (.ok, fs2) else (r, fs2)
          | .error _ => (r, fs2)
      | (r, fs1) => (r, fs1)

/-- Go `os.MkdirAll`: the directory and all its missing parents. The parent
path is shorter at every call, so the budget is never used up. -/
def MkdirAll (path : Str) (perm : Nat) (fs : FS) : Res × FS :=
  MkdirAllAux (path.length + 1) path perm fs

/-- Go `os.Readlink`: the target of the symbolic link a path names. -/
def Readlink (name : Str) (fs : FS) : Except Error Str :=
  match fs.resolve name false with
  | .error e => .error (.pathError .readlink name e)
  | .ok (_, none) => .error (.pathError .readlink name .enoent)
  | .ok (_, some (.symlink t)) => .ok t
  | .ok (_, some _) => .error (.pathError .readlink name .einval)

/-- Go `os.Symlink`: a new symbolic link with the given target text; the path
must not name anything yet, and the target must not be empty. -/
def Symlink (oldname newname : Str) (fs : FS) : Res × FS :=
  if oldname = [] then (.err (.linkError .symlink oldname newname .enoent), fs)
  else
    match fs.resolve newname false with
    | .error e => (.err (.linkError .symlink oldname newname e), fs)
    | .ok (_, some _) => (.err (.linkError .symlink oldname newname .eexist), fs)
    | .ok (p, none) => (.ok, fs.put p (.symlink oldname))

/-- Go `os.Open`: the location of the node opened for reading. Opening a
directory succeeds (reading it as a file fails later); a special node gives
`enxio`. -/
def Open (name : Str) (fs : FS) : Except Error CPath :=
  match fs.resolve name true with
  | .error e => .error (.pathError .open name e)
  | .ok (_, none) => .error (.pathError .open name .enoent)
  | .ok (_, some (.special _ _)) => .error (.pathError .open name .enxio)
  | .ok (p, some _) => .ok p

/-- Go `os.Create`: the file is created with mode 0666 before umask, or
truncated when it exists; the result is its location. A directory cannot be
opened for writing. -/
def Create (name : Str) (fs : FS) : Except Error CPath × FS :=
  match fs.resolve name true with
  | .error e => (.error (.pathError .open name e), fs)
  | .ok (p, none) => (.ok p, fs.put p (.file (fs.masked 0o666) []))
  | .ok (p, some (.file perm _)) => (.ok p, fs.put p (.file perm []))
  | .ok (_, some (.dir _)) => (.error (.pathError .open name .eisdir), fs)
  | .ok (_, some _) => (.error (.pathError .open name .enxio), fs)

/-- The function `readDirNames` of `path/filepath`: the sorted names of the
entries of a directory. -/
def readDirNames (dirname : Str) (fs : FS) : Except Error (List Str) :=
  match fs.resolve dirname true with
  | .error e => .error (.pathError .open dirname e)
  | .ok (_, none) => .error (.pathError .open dirname .enoent)
  | .ok (p, some (.dir _)) => .ok (fs.childNames p)
  | .ok (_, some (.special _ _)) => .error (.pathError .open dirname .enxio)
  | .ok (_, some _) => .error (.pathError .readdirent dirname .enotdir)

/-! ## `asset.go` -/

/-- Source `copyRegularFile` (asset.go:11-26): open the source, create (or
truncate) the destination, copy all bytes. The source is read after the
destination has been created, as `io.Copy` does; reading a directory fails
with `eisdir`. -/
def copyRegularFile (src dest : Str) (fs : FS) : Res × FS :=
  match Open src fs with
  | .error e => (.err e, fs)
  | .ok srcFile =>
    match Create dest fs with
    | (.error e, fs1) => (.err e, fs1)
    | (.ok destFile, fs1) =>
      match fs1.get srcFile, fs1.get destFile with
      | some (.file _ data), some (.file perm _) => (.ok, fs1.put destFile (.file perm data))
      | _, _ => (.err (.pathError .read src .eisdir), fs1)

/-- Source `copySymlink` (asset.go:28-37). -/
def copySymlink (src dest : Str) (fs : FS) : Res × FS :=
  match Readlink src fs with
  | .error e => (.err e, fs)
  | .ok symTarget => Symlink symTarget dest fs

/-- The callback that `copyTree` passes to `filepath.Walk` (asset.go:40-65).
The slice `path[len(src):]` panics when `path` is shorter than `src`. -/
def copyTreeFn (src dest : Str) (path : Str) (info : Option FileInfo) (err : Option Error)
    (fs : FS) : Res × FS :=
  match err with
  | some e => (.err e, fs)
  | none =>
    if path.length < src.length then (.panic, fs)
    else
      let rootLess := path.drop src.length
      let target := Join dest rootLess
      match info with
      | none => (.panic, fs)
      | some info =>
        let mode := info.Mode
        if mode.IsDir then Mkdir target mode.Perm fs
        else if mode.IsRegular then copyRegularFile path target fs
        else if mode.isSymlink then copySymlink path target fs
        else (.err (.UnsupportedNodeType path mode), fs)

/-- The loop of `walk` over the names of a directory: the first result that is
not nil ends it. -/
def walkNames (path : Str) (fn : Str → Option FileInfo → Option Error → FS → Res × FS)
    (rec : Str → FileInfo → FS → Res × FS) : List Str → FS → Res × FS
  | [], fs => (.ok, fs)
  | name :: names, fs =>
    let filename := Join path name
    let r :=
      match Lstat filename fs with
      | .error e => fn filename none (some e) fs
      | .ok fileInfo => rec filename fileInfo fs
    match r with
    | (.ok, fs1) => walkNames path fn rec names fs1
    | (r1, fs1) => (r1, fs1)

/-- The function `walk` of `path/filepath`, its recursion depth bounded by
`fuel`: a node that is not a directory is handed to the callback; for a
directory the names are read, the callback is invoked, and the entries are
walked in order. The callback of `copyTree` never returns `SkipDir`. -/
def walk (fn : Str → Option FileInfo → Option Error → FS → Res × FS) :
    Nat → Str → FileInfo → FS → Res × FS
  | 0, _, _, fs => (.outOfFuel, fs)
  | fuel + 1, path, info, fs =>
    if !info.IsDir then fn path (some info) none fs
    else
      match readDirNames path fs with
      | .error e => fn path (some info) (some e) fs
      | .ok names =>
        match fn path (some info) none fs with
        | (.ok, fs1) => walkNames path fn (walk fn fuel) names fs1
        | (r1, fs1) => (r1, fs1)

/-- Go `filepath.Walk`. -/
def Walk (fuel : Nat) (root : Str) (fn : Str → Option FileInfo → Option Error → FS → Res × FS)
    (fs : FS) : Res × FS :=
  match Lstat root fs with
  | .error e => fn root none (some e) fs
  | .ok info => walk fn fuel root info fs

/-- Source `copyTree` (asset.go:39-66). -/
def copyTree (fuel : Nat) (src dest : Str) (fs : FS) : Res × FS :=
  Walk fuel src (copyTreeFn src dest) fs

/-- Source `validateAsset` (asset.go:78-93). -/
def validateAsset (ACIAsset localAsset : Str) (fs : FS) : Option Error :=
  if !IsAbs ACIAsset then some (.InvalidDestPath ACIAsset)
  else if !IsAbs localAsset then some (.InvalidSourcePath localAsset)
  else
    match Stat localAsset fs with
    | .error err => some (.SourceNotFound localAsset err)
    | .ok fi =>
      if fi.Mode.IsDir || fi.Mode.IsRegular then none
      else some (.UnsupportedSourceType fi.Name)

/-- Modelled from the spec: `ListSeparator`, a function of the repository that
is not among the source files; the message of a malformed asset names "the
expected separator", the platform path-list separator, `:` on Unix. -/
def ListSeparator : Str := [':']

/-- The body of the loop of `PrepareAssets` (asset.go:97-114) for one asset.
`fuel` bounds the depth of the tree walk. -/
def prepareAsset (fuel : Nat) (asset : Str) (rootfs : Str)
    (placeholderMapping : List (Str × Str)) (fs : FS) : Res × FS :=
  match SplitList asset with
  | [s0, s1] =>
    let ACIAsset := replacePlaceholders s0 placeholderMapping
    let localAsset := replacePlaceholders s1 placeholderMapping
    match validateAsset ACIAsset localAsset fs with
    | some err => (.err err, fs)
    | none =>
      let ACIAssetSubPath := Join rootfs (Dir ACIAsset)
      match MkdirAll ACIAssetSubPath 0o755 fs with
      | (.ok, fs1) =>
        match copyTree fuel localAsset (Join rootfs ACIAsset) fs1 with
        | (.err err, fs2) => (.err (.CopyFailed asset err), fs2)
        | r => r
      | (.err err, fs1) => (.err (.DirectoryCreationFailed asset err), fs1)
      | r => r
  | _ => (.err (.MalformedAssetSpec asset ListSeparator), fs)

/-- Source `PrepareAssets` (asset.go:95-117): the assets in order, stopping at
the first that fails. -/
def PrepareAssets (fuel : Nat) (assets : List Str) (rootfs : Str)
    (placeholderMapping : List (Str × Str)) (fs : FS) : Res × FS :=
  match assets with
  | [] => (.ok, fs)
  | asset :: rest =>
    match prepareAsset fuel asset rootfs placeholderMapping fs with
    | (.ok, fs1) => PrepareAssets fuel rest rootfs placeholderMapping fs1
    | r => r

/-! ## An example state -/

/-- The state of the end-to-end example of the specification: the root
filesystem `/tmp/rootfs`, and the source directory `/home/user/build/app` with
the regular file `bin/run` (mode 0755) and the symbolic link `latest` to `run`;
besides it a symbolic link `/home/user/link` to the file `run`, a symbolic link
`/home/user/gone` to nothing, and a named pipe `/home/user/build/pipe`. -/
def exampleFS : FS where
  cwd := []
  umask := 0o022
  nodes := [
    ([], .dir 0o755),
    (["tmp".toList], .dir 0o777),
    (["tmp".toList, "rootfs".toList], .dir 0o755),
    (["home".toList], .dir 0o755),
    (["home".toList, "user".toList], .dir 0o755),
    (["home".toList, "user".toList, "link".toList], .symlink "build/app/bin/run".toList),
    (["home".toList, "user".toList, "gone".toList], .symlink "nothing".toList),
    (["home".toList, "user".toList, "build".toList], .dir 0o755),
    (["home".toList, "user".toList, "build".toList, "app".toList], .dir 0o755),
    (["home".toList, "user".toList, "build".toList, "app".toList, "bin".toList], .dir 0o755),
    (["home".toList, "user".toList, "build".toList, "app".toList, "bin".toList, "run".toList],
      .file 0o755 [127, 69, 76, 70]),
    (["home".toList, "user".toList, "build".toList, "app".toList, "latest".toList],
      .symlink "run".toList),
    (["home".toList, "user".toList, "build".toList, "pipe".toList],
      .special .fifo 0o644)]

/-! ## Clean paths, well-formed states, and the traversal order -/

/-- A name that a directory entry can have: not empty, not `.` or `..`, and
without a slash. -/
def PlainName (n : Str) : Prop :=
  n ≠ [] ∧ n ≠ ['.'] ∧ n ≠ ['.', '.'] ∧ '/' ∉ n

instance (n : Str) : Decidable (PlainName n) := by
  unfold PlainName; infer_instance

/-- The absolute path string, in cleaned form, of a canonical path other than
the root: a slash before every name. -/
def absPath (p : CPath) : Str :=
  p.flatMap (fun n => '/' :: n)

/-- The node at a canonical path is a directory. -/
def FS.isDir (fs : FS) (p : CPath) : Bool :=
  match fs.get p with
  | some (.dir _) => true
  | _ => false

/-- A node that `copyTree` can copy: a directory, a regular file or a symbolic
link. -/
def Node.supported : Node → Bool
  | .special _ _ => false
  | _ => true

/-- The node at a canonical path exists and is one that `copyTree` can copy. -/
def FS.supported (fs : FS) (p : CPath) : Bool :=
  match fs.get p with
  | some n => n.supported
  | none => false

/-- A well-formed state: the root is a directory, and every entry has plain
names on its path, a directory as parent, and, when it is a symbolic link, a
target that is not empty. -/
def FS.WF (fs : FS) : Prop :=
  fs.isDir [] = true
  ∧ ∀ e ∈ fs.nodes, (∀ n ∈ e.1, PlainName n)
      ∧ (e.1 ≠ [] → fs.isDir e.1.dropLast = true)
      ∧ e.2 ≠ .symlink []

instance (fs : FS) : Decidable fs.WF := by
  unfold FS.WF; infer_instance

/-- The state with entries added in front of the node list. -/
def FS.append (fs : FS) (added : List (CPath × Node)) : FS :=
  { fs with nodes := added ++ fs.nodes }

/-- The paths of the tree at `p` in the order in which `filepath.Walk` visits
them: a node before the entries of its directory, the entries by sorted name.
`fuel` bounds the depth. -/
def subtree (fs : FS) : Nat → CPath → List CPath
  | 0, _ => []
  | fuel + 1, p =>
    match fs.get p with
    | none => []
    | some (.dir _) => p :: (fs.childNames p).flatMap (fun n => subtree fs fuel (p ++ [n]))
    | some _ => [p]

/-- The node that the copy of a node is: a directory with the permission bits
left by the umask, a regular file with the same bytes and the mode of a newly
created file, a symbolic link with the same target text. -/
def copyOf (fs : FS) : Node → Option Node
  | .dir perm => some (.dir (fs.masked perm))
  | .file _ data => some (.file (fs.masked 0o666) data)
  | .symlink t => some (.symlink t)
  | .special _ _ => none

/-- The entries that the copy of a node writes at `key`, the last one first: a
regular file is created empty and then written. -/
def written (fs : FS) (key : CPath) : Node → List (CPath × Node)
  | .dir perm => [(key, .dir (fs.masked perm))]
  | .file _ data => [(key, .file (fs.masked 0o666) data), (key, .file (fs.masked 0o666) [])]
  | .symlink t => [(key, .symlink t)]
  | .special _ _ => []

/-- What copying the nodes at the paths `ps` of the source tree `S` to the
destination `D`, in order, amounts to: the entries written, the last one first,
and the result, which is the error of the first node that is not supported. -/
def copySeq (fs : FS) (S D : CPath) : List CPath → Res × List (CPath × Node)
  | [] => (.ok, [])
  | p :: ps =>
    match fs.get p with
    | none => copySeq fs S D ps
    | some (.special k perm) => (.err (.UnsupportedNodeType (absPath p) ⟨.other k, perm⟩), [])
    | some node =>
      ((copySeq fs S D ps).1, (copySeq fs S D ps).2 ++ written fs (D ++ p.drop S.length) node)

/-- The setting in which `copyTree` copies the tree at the canonical path `S`
to the canonical path `D`: both are given by their cleaned absolute path
strings; the entries of the source tree have plain names, directories as
parents and, for symbolic links, targets that are not empty; nothing exists at
or below the destination, its parent directories exist, and it does not lie
inside the source tree. -/
structure CopySetup (fs : FS) (src dest : Str) (S D : CPath) : Prop where
  src_eq : src = absPath S
  dest_eq : dest = absPath D
  src_ne : S ≠ []
  dest_ne : D ≠ []
  src_plain : ∀ n ∈ S, PlainName n
  dest_plain : ∀ n ∈ D, PlainName n
  src_above : ∀ k, k < S.length → 0 < k → fs.isDir (S.take k) = true
  src_tree : ∀ e ∈ fs.nodes, S <+: e.1 →
    (∀ n ∈ e.1, PlainName n) ∧ (e.1 ≠ S → fs.isDir e.1.dropLast = true) ∧ e.2 ≠ .symlink []
  dest_above : ∀ k, k < D.length → 0 < k → fs.isDir (D.take k) = true
  dest_free : ∀ e ∈ fs.nodes, ¬ D <+: e.1
  apart : ¬ S <+: D

/-- The state `fs` is the state `fs0` with entries added, all of them at or
below `D`. -/
def Extends (fs0 fs : FS) (D : CPath) : Prop :=
  ∃ added, fs = fs0.append added ∧ ∀ e ∈ added, D <+: e.1

/-- The tree walk with budget `fuel` copies as `copySeq` describes: started on
a node of the source tree whose destination is free and whose destination
parents exist, in a state that extends the initial one below the destination,
it returns the result of `copySeq` on the traversal of that node and adds
exactly its entries. -/
def WalkCopies (fs0 : FS) (src dest : Str) (S D : CPath) (fuel : Nat) : Prop :=
  ∀ (r : CPath) (fs : FS) (info : FileInfo) (node : Node),
    Extends fs0 fs D →
    fs0.get (S ++ r) = some node → info.mode = node.mode →
    (∀ n ∈ r, PlainName n) →
    (∀ k, 0 < k → k < (S ++ r).length → fs0.isDir ((S ++ r).take k) = true) →
    (∀ k, k < r.length → fs.isDir (D ++ r.take k) = true) →
    (∀ q, fs.get (D ++ r ++ q) = none) →
    (∀ e ∈ fs0.nodes, S ++ r <+: e.1 → e.1.length < (S ++ r).length + fuel) →
    walk (copyTreeFn src dest) fuel (absPath (S ++ r)) info fs
      = ((copySeq fs0 S D (subtree fs0 fuel (S ++ r))).1,
         fs.append (copySeq fs0 S D (subtree fs0 fuel (S ++ r))).2)

/-! # Theorems -/

/-! ## Placeholder substitution -/

theorem replaceGo_skip (old new : Str) (xs rest : Str) :
    replaceGo old new xs.length (xs ++ rest) = replaceGo old new 0 rest := by
  induction xs with
  | nil => rfl
  | cons x xs ih => simpa [replaceGo] using ih

theorem replaceGo_copy (mk : Char) (body new : Str) (xs rest : Str) (h : mk ∉ xs) :
    replaceGo (mk :: body) new 0 (xs ++ rest) = xs ++ replaceGo (mk :: body) new 0 rest := by
  induction xs with
  | nil => rfl
  | cons x xs ih =>
    have hx : x ≠ mk := fun e => h (by simp [e])
    have hxs : mk ∉ xs := fun e => h (by simp [e])
    have hne : (mk == x) = false := by simpa using fun e => hx e.symm
    simp [replaceGo, List.isPrefixOf, hne, ih hxs]

theorem render_lits (xs : Str) : (xs.map Piece.lit).flatMap Piece.render = xs := by
  induction xs with
  | nil => rfl
  | cons x xs ih => simp [List.flatMap_cons, Piece.render, ih]

theorem final_lits (xs : Str) : (xs.map Piece.lit).flatMap Piece.final = xs := by
  induction xs with
  | nil => rfl
  | cons x xs ih => simp [List.flatMap_cons, Piece.final, ih]

theorem Marked.keys {mk : Char} {m : List (Str × Str)} (hm : Marked mk m) :
    ∀ e ∈ m, ∃ body, e.1 = mk :: body ∧ mk ∉ body := by
  intro e he
  obtain ⟨h1, h2⟩ := hm.1 e he
  cases hk : e.1 with
  | nil => rw [hk] at h1; simp at h1
  | cons c body =>
    rw [hk] at h1 h2
    simp only [List.head?_cons, Option.some.injEq] at h1
    subst h1
    exact ⟨body, rfl, h2⟩

theorem Marked.repl {mk : Char} {m : List (Str × Str)} (hm : Marked mk m) :
    ∀ e ∈ m, mk ∉ e.2 := hm.2.1

theorem Marked.prefixFree {mk : Char} {m : List (Str × Str)} (hm : Marked mk m) :
    ∀ e ∈ m, ∀ e' ∈ m, e.1 <+: e'.1 → e = e' := hm.2.2

theorem replaceGo_pieces (mk : Char) (m : List (Str × Str)) (hm : Marked mk m)
    (e : Str × Str) (he : e ∈ m) (ps : List Piece) (hps : ∀ p ∈ ps, p.Fits mk m) :
    replaceGo e.1 e.2 0 (ps.flatMap Piece.render)
      = (ps.flatMap (substPiece e)).flatMap Piece.render := by
  obtain ⟨body, hk, hbody⟩ := hm.keys e he
  induction ps with
  | nil => rfl
  | cons p ps ih =>
    have ih' := ih (fun q hq => hps q (List.mem_cons_of_mem _ hq))
    have hp := hps p (List.mem_cons_self _ _)
    cases p with
    | lit c =>
      have hc : c ≠ mk := hp
      have hne : (mk == c) = false := by simpa using fun e => hc e.symm
      simp only [List.flatMap_cons, Piece.render, substPiece, List.singleton_append,
        List.flatMap_nil, List.append_nil]
      rw [hk] at ih' ⊢
      simp [replaceGo, List.isPrefixOf, hne, ih']
    | tok e' =>
      have he' : e' ∈ m := hp
      obtain ⟨body', hk', hbody'⟩ := hm.keys e' he'
      simp only [List.flatMap_cons, Piece.render, substPiece]
      by_cases hee : e' = e
      · subst hee
        simp only [if_true, List.flatMap_append, render_lits]
        rw [← ih']
        rw [hk]
        have hpre : (mk :: body).isPrefixOf (mk :: (body ++ ps.flatMap Piece.render)) = true := by
          rw [List.isPrefixOf_iff_prefix]
          exact ⟨ps.flatMap Piece.render, by simp⟩
        rw [List.cons_append]
        simp only [replaceGo, hpre, if_true, List.length_cons, Nat.add_sub_cancel]
        rw [replaceGo_skip]
      · simp only [hee, if_false, List.flatMap_cons, List.flatMap_nil, List.append_nil,
          Piece.render, List.flatMap_append]
        rw [← ih']
        have hnp : e.1.isPrefixOf (e'.1 ++ ps.flatMap Piece.render) = false := by
          rw [Bool.eq_false_iff]
          intro hpre
          rw [List.isPrefixOf_iff_prefix] at hpre
          rcases List.prefix_or_prefix_of_prefix hpre (List.prefix_append _ _) with h | h
          · exact hee (hm.prefixFree e he e' he' h).symm
          · exact hee (hm.prefixFree e' he' e he h)
        rw [hk'] at hnp ⊢
        rw [hk] at hnp ⊢
        rw [List.cons_append] at hnp ⊢
        simp only [replaceGo, hnp, Bool.false_eq_true, if_false]
        rw [replaceGo_copy mk body e.2 body' _ hbody', List.cons_append]

theorem stringsReplace_pieces (mk : Char) (m : List (Str × Str)) (hm : Marked mk m)
    (e : Str × Str) (he : e ∈ m) (ps : List Piece) (hps : ∀ p ∈ ps, p.Fits mk m) :
    stringsReplace (ps.flatMap Piece.render) e.1 e.2
      = (ps.flatMap (substPiece e)).flatMap Piece.render := by
  obtain ⟨body, hk, hbody⟩ := hm.keys e he
  have h1 : e.1 ≠ e.2 := by
    intro h
    apply hm.repl e he
    rw [← h, hk]
    simp
  have h2 : e.1 ≠ [] := by rw [hk]; simp
  unfold stringsReplace
  rw [if_neg h1, if_neg h2]
  exact replaceGo_pieces mk m hm e he ps hps

theorem substPiece_fits (mk : Char) (m : List (Str × Str)) (hm : Marked mk m)
    (e : Str × Str) (he : e ∈ m) (ps : List Piece) (hps : ∀ p ∈ ps, p.Fits mk m) :
    ∀ p ∈ ps.flatMap (substPiece e), p.Fits mk m := by
  intro p hp
  rw [List.mem_flatMap] at hp
  obtain ⟨q, hq, hpq⟩ := hp
  cases q with
  | lit c =>
    simp only [substPiece, List.mem_singleton] at hpq
    subst hpq
    exact hps _ hq
  | tok e' =>
    simp only [substPiece] at hpq
    split at hpq
    · rw [List.mem_map] at hpq
      obtain ⟨c, hc, rfl⟩ := hpq
      intro hcm
      exact hm.repl e he (hcm ▸ hc)
    · rw [List.mem_singleton] at hpq
      subst hpq
      exact hps _ hq

theorem substPiece_final (e : Str × Str) (ps : List Piece) :
    (ps.flatMap (substPiece e)).flatMap Piece.final = ps.flatMap Piece.final := by
  induction ps with
  | nil => rfl
  | cons p ps ih =>
    simp only [List.flatMap_cons, List.flatMap_append, ih]
    congr 1
    cases p with
    | lit c => simp [substPiece, Piece.final]
    | tok e' =>
      simp only [substPiece]
      split
      · rename_i h
        subst h
        simp [final_lits, Piece.final]
      · simp [Piece.final]

theorem substPiece_tok_mem (e : Str × Str) (ps : List Piece) (e' : Str × Str)
    (h : Piece.tok e' ∈ ps.flatMap (substPiece e)) : Piece.tok e' ∈ ps ∧ e' ≠ e := by
  rw [List.mem_flatMap] at h
  obtain ⟨q, hq, hpq⟩ := h
  cases q with
  | lit c => simp [substPiece] at hpq
  | tok e'' =>
    simp only [substPiece] at hpq
    split at hpq
    · simp at hpq
    · rename_i hne
      rw [List.mem_singleton] at hpq
      cases hpq
      exact ⟨hq, hne⟩

theorem replacePlaceholders_pieces (mk : Char) (m : List (Str × Str)) (hm : Marked mk m)
    (es : List (Str × Str)) (hes : ∀ e ∈ es, e ∈ m) (ps : List Piece)
    (hps : ∀ p ∈ ps, p.Fits mk m) :
    replacePlaceholders (ps.flatMap Piece.render) es = (substAll es ps).flatMap Piece.render
    ∧ (∀ p ∈ substAll es ps, p.Fits mk m)
    ∧ (substAll es ps).flatMap Piece.final = ps.flatMap Piece.final
    ∧ (∀ e', Piece.tok e' ∈ substAll es ps → Piece.tok e' ∈ ps ∧ e' ∉ es) := by
  induction es generalizing ps with
  | nil =>
    refine ⟨rfl, hps, rfl, fun e' h => ⟨h, by simp⟩⟩
  | cons e es ih =>
    have he : e ∈ m := hes e (List.mem_cons_self _ _)
    have hes' : ∀ e ∈ es, e ∈ m := fun x hx => hes x (List.mem_cons_of_mem _ hx)
    have hfit := substPiece_fits mk m hm e he ps hps
    obtain ⟨h1, h2, h3, h4⟩ := ih hes' (ps.flatMap (substPiece e)) hfit
    refine ⟨?_, h2, ?_, ?_⟩
    · show replacePlaceholders (stringsReplace _ e.1 e.2) es = _
      rw [stringsReplace_pieces mk m hm e he ps hps]
      exact h1
    · show (substAll es (ps.flatMap (substPiece e))).flatMap Piece.final = _
      rw [h3, substPiece_final]
    · intro e' h
      obtain ⟨ha, hb⟩ := h4 e' h
      obtain ⟨hc, hd⟩ := substPiece_tok_mem e ps e' ha
      exact ⟨hc, by simp [hd, hb]⟩

theorem render_eq_final_of_no_tok (ps : List Piece) (h : ∀ e, Piece.tok e ∉ ps) :
    ps.flatMap Piece.render = ps.flatMap Piece.final := by
  induction ps with
  | nil => rfl
  | cons p ps ih =>
    have ih' := ih (fun e he => h e (List.mem_cons_of_mem _ he))
    cases p with
    | lit c => simp [List.flatMap_cons, Piece.render, Piece.final, ih']
    | tok e => exact absurd (List.mem_cons_self _ _) (h e)

/-- Under the marker discipline, resolving a tokenised path in any iteration
order that covers the mapping gives the piecewise substitution. -/
theorem replacePlaceholders_eq_final (mk : Char) (m : List (Str × Str)) (hm : Marked mk m)
    (es : List (Str × Str)) (hes : ∀ e, e ∈ es ↔ e ∈ m) (ps : List Piece)
    (hps : ∀ p ∈ ps, p.Fits mk m) :
    replacePlaceholders (ps.flatMap Piece.render) es = ps.flatMap Piece.final := by
  obtain ⟨h1, _, h3, h4⟩ :=
    replacePlaceholders_pieces mk m hm es (fun e he => (hes e).1 he) ps hps
  rw [h1, ← h3]
  apply render_eq_final_of_no_tok
  intro e he
  obtain ⟨ha, hb⟩ := h4 e he
  exact hb ((hes e).2 (hps _ ha))

theorem final_no_marker (mk : Char) (m : List (Str × Str)) (hm : Marked mk m)
    (ps : List Piece) (hps : ∀ p ∈ ps, p.Fits mk m) :
    ∀ p ∈ (ps.flatMap Piece.final).map Piece.lit, p.Fits mk m := by
  intro p hp
  rw [List.mem_map] at hp
  obtain ⟨c, hc, rfl⟩ := hp
  rw [List.mem_flatMap] at hc
  obtain ⟨q, hq, hcq⟩ := hc
  have hfit := hps q hq
  cases q with
  | lit d =>
    simp only [Piece.final, List.mem_singleton] at hcq
    subst hcq
    exact hfit
  | tok e =>
    intro hcm
    exact hm.repl e hfit (hcm ▸ hcq)

/-- C7, as stated, fails: with the single entry "${V}" ↦ "V", whose
replacement text contains no placeholder token, resolving "${${V}}" gives
"${V}" and resolving that again gives "V". -/
theorem replacePlaceholders_not_idempotent :
    ¬ (∀ (path : Str) (m o1 o2 : List (Str × Str)),
        (m.map Prod.fst).Nodup →
        (∀ e ∈ m, ∀ e' ∈ m, ¬ e'.1 <:+: e.2) →
        o1.Perm m → o2.Perm m →
        replacePlaceholders (replacePlaceholders path o1) o2 = replacePlaceholders path o1) := by
  intro h
  have h' := h "${${V}}".toList [("${V}".toList, "V".toList)] [("${V}".toList, "V".toList)]
    [("${V}".toList, "V".toList)] (by decide) (by decide) (List.Perm.refl _) (List.Perm.refl _)
  revert h'
  decide

/-- C7 (amended): when every placeholder token starts with a marker character
that occurs nowhere else in a token and in no replacement text, no token is a
prefix of another, and the path is made of whole tokens and of characters other
than the marker, then resolving the resolved path again, in any iteration
order of the mapping, changes nothing. -/
theorem replacePlaceholders_idempotent_marked (mk : Char) (m o1 o2 : List (Str × Str))
    (ps : List Piece) (hm : Marked mk m) (hps : ∀ p ∈ ps, p.Fits mk m)
    (h1 : o1.Perm m) (h2 : o2.Perm m) :
    replacePlaceholders (replacePlaceholders (ps.flatMap Piece.render) o1) o2
      = replacePlaceholders (ps.flatMap Piece.render) o1 := by
  rw [replacePlaceholders_eq_final mk m hm o1 (fun e => h1.mem_iff) ps hps]
  have h := replacePlaceholders_eq_final mk m hm o2 (fun e => h2.mem_iff)
    ((ps.flatMap Piece.final).map Piece.lit) (final_no_marker mk m hm ps hps)
  rw [render_lits, final_lits] at h
  exact h

/-- The example of the specification: "/app/${VERSION}/bin" with
"${VERSION}" ↦ "1.2.3" resolves to "/app/1.2.3/bin", and resolving that again
leaves it unchanged. -/
theorem replacePlaceholders_idempotent_marked_witness :
    replacePlaceholders "/app/${VERSION}/bin".toList [("${VERSION}".toList, "1.2.3".toList)]
      = "/app/1.2.3/bin".toList
    ∧ replacePlaceholders
        (replacePlaceholders "/app/${VERSION}/bin".toList
          [("${VERSION}".toList, "1.2.3".toList)])
        [("${VERSION}".toList, "1.2.3".toList)]
      = replacePlaceholders "/app/${VERSION}/bin".toList
          [("${VERSION}".toList, "1.2.3".toList)] :=
  ⟨by decide,
   replacePlaceholders_idempotent_marked (Char.ofNat 36) [("${VERSION}".toList, "1.2.3".toList)]
    [("${VERSION}".toList, "1.2.3".toList)] [("${VERSION}".toList, "1.2.3".toList)]
    ("/app/".toList.map Piece.lit ++ [Piece.tok ("${VERSION}".toList, "1.2.3".toList)]
      ++ "/bin".toList.map Piece.lit)
    (by decide) (by decide) (List.Perm.refl _) (List.Perm.refl _)⟩

/-- C10, as stated, fails: with the entries "ab" ↦ "x" and "b" ↦ "y", whose
replacement texts contain no placeholder token, the path "ab" resolves to "x"
when "ab" is iterated first and to "ay" when "b" is iterated first. -/
theorem replacePlaceholders_order_dependent :
    ¬ (∀ (path : Str) (m o1 o2 : List (Str × Str)),
        (m.map Prod.fst).Nodup →
        (∀ e ∈ m, ∀ e' ∈ m, ¬ e'.1 <:+: e.2) →
        o1.Perm m → o2.Perm m →
        replacePlaceholders path o1 = replacePlaceholders path o2) := by
  intro h
  have h' := h "ab".toList [("ab".toList, "x".toList), ("b".toList, "y".toList)]
    [("ab".toList, "x".toList), ("b".toList, "y".toList)]
    [("b".toList, "y".toList), ("ab".toList, "x".toList)]
    (by decide) (by decide) (List.Perm.refl _) (List.Perm.swap _ _ _)
  revert h'
  decide

/-- C10 (amended): when every placeholder token starts with a marker character
that occurs nowhere else in a token and in no replacement text, no token is a
prefix of another, and the path is made of whole tokens and of characters other
than the marker, then every iteration order of the mapping gives the same
resolved path. -/
theorem replacePlaceholders_order_independent_marked (mk : Char)
    (m o1 o2 : List (Str × Str)) (ps : List Piece) (hm : Marked mk m)
    (hps : ∀ p ∈ ps, p.Fits mk m) (h1 : o1.Perm m) (h2 : o2.Perm m) :
    replacePlaceholders (ps.flatMap Piece.render) o1
      = replacePlaceholders (ps.flatMap Piece.render) o2 := by
  rw [replacePlaceholders_eq_final mk m hm o1 (fun e => h1.mem_iff) ps hps,
    replacePlaceholders_eq_final mk m hm o2 (fun e => h2.mem_iff) ps hps]

/-- Both iteration orders of "${OS}" ↦ "linux", "${ARCH}" ↦ "amd64" resolve
"/bin/${OS}_${ARCH}" to the same path. -/
theorem replacePlaceholders_order_independent_marked_witness :
    replacePlaceholders "/bin/${OS}_${ARCH}".toList
        [("${OS}".toList, "linux".toList), ("${ARCH}".toList, "amd64".toList)]
      = replacePlaceholders "/bin/${OS}_${ARCH}".toList
        [("${ARCH}".toList, "amd64".toList), ("${OS}".toList, "linux".toList)] :=
  replacePlaceholders_order_independent_marked (Char.ofNat 36)
    [("${OS}".toList, "linux".toList), ("${ARCH}".toList, "amd64".toList)]
    [("${OS}".toList, "linux".toList), ("${ARCH}".toList, "amd64".toList)]
    [("${ARCH}".toList, "amd64".toList), ("${OS}".toList, "linux".toList)]
    ("/bin/".toList.map Piece.lit ++ [Piece.tok ("${OS}".toList, "linux".toList),
      Piece.lit (Char.ofNat 95), Piece.tok ("${ARCH}".toList, "amd64".toList)])
    (by decide) (by decide) (List.Perm.refl _) (List.Perm.swap _ _ _)

/-! ## `PrepareAssets`: malformed specs and validation -/

theorem PrepareAssets_cons (fuel : Nat) (asset : Str) (rest : List Str) (rootfs : Str)
    (m : List (Str × Str)) (fs : FS) :
    PrepareAssets fuel (asset :: rest) rootfs m fs
      = match prepareAsset fuel asset rootfs m fs with
        | (.ok, fs1) => PrepareAssets fuel rest rootfs m fs1
        | r => r := by
  rw [PrepareAssets]

theorem PrepareAssets_append (fuel : Nat) (pre rest : List Str) (rootfs : Str)
    (m : List (Str × Str)) (fs fs1 : FS)
    (hpre : PrepareAssets fuel pre rootfs m fs = (.ok, fs1)) :
    PrepareAssets fuel (pre ++ rest) rootfs m fs = PrepareAssets fuel rest rootfs m fs1 := by
  induction pre generalizing fs with
  | nil =>
    simp only [PrepareAssets, Prod.mk.injEq, true_and] at hpre
    subst hpre
    rfl
  | cons a pre ih =>
    rw [List.cons_append, PrepareAssets_cons]
    rw [PrepareAssets_cons] at hpre
    rcases hstep : prepareAsset fuel a rootfs m fs with ⟨r, fs2⟩
    rw [hstep] at hpre
    cases r <;> simp_all

theorem PrepareAssets_cons_of_not_ok (fuel : Nat) (asset : Str) (rest : List Str) (rootfs : Str)
    (m : List (Str × Str)) (fs fs1 : FS) (r : Res) (hr : r ≠ .ok)
    (h : prepareAsset fuel asset rootfs m fs = (r, fs1)) :
    PrepareAssets fuel (asset :: rest) rootfs m fs = (r, fs1) := by
  rw [PrepareAssets_cons, h]
  cases r <;> simp_all

theorem prepareAsset_malformed (fuel : Nat) (asset rootfs : Str) (m : List (Str × Str))
    (fs : FS) (h : (SplitList asset).length ≠ 2) :
    prepareAsset fuel asset rootfs m fs = (.err (.MalformedAssetSpec asset ListSeparator), fs) := by
  unfold prepareAsset
  split
  · rename_i s0 s1 hs
    rw [hs] at h
    simp at h
  · rfl

theorem prepareAsset_invalid (fuel : Nat) (asset rootfs s0 s1 : Str) (m : List (Str × Str))
    (fs : FS) (err : Error) (hs : SplitList asset = [s0, s1])
    (hv : validateAsset (replacePlaceholders s0 m) (replacePlaceholders s1 m) fs = some err) :
    prepareAsset fuel asset rootfs m fs = (.err err, fs) := by
  unfold prepareAsset
  simp only [hs, hv]

/-- C2: an asset spec that does not split into exactly two parts on the
path-list separator makes `PrepareAssets` fail with `MalformedAssetSpec` for
that spec, and the filesystem state is the one left by the specs before it. -/
theorem PrepareAssets_malformed (fuel : Nat) (pre rest : List Str) (asset rootfs : Str)
    (m : List (Str × Str)) (fs fs1 : FS)
    (hpre : PrepareAssets fuel pre rootfs m fs = (.ok, fs1))
    (h : (SplitList asset).length ≠ 2) :
    PrepareAssets fuel (pre ++ asset :: rest) rootfs m fs
      = (.err (.MalformedAssetSpec asset ListSeparator), fs1) := by
  rw [PrepareAssets_append fuel pre _ rootfs m fs fs1 hpre]
  exact PrepareAssets_cons_of_not_ok fuel asset rest rootfs m fs1 fs1 _ (by simp)
    (prepareAsset_malformed fuel asset rootfs m fs1 h)

/-- A spec without separator, one with three parts, and the empty spec are
malformed; here the spec "/opt/app/home/user" lacks the separator. -/
theorem PrepareAssets_malformed_witness :
    (SplitList "/opt/app/home/user".toList).length ≠ 2
    ∧ (SplitList "/a:/b:/c".toList).length ≠ 2
    ∧ (SplitList "".toList).length ≠ 2
    ∧ PrepareAssets 8 ([] ++ "/opt/app/home/user".toList :: ["/opt/app:/home/user/build/app".toList])
        "/tmp/rootfs".toList [] exampleFS
      = (.err (.MalformedAssetSpec "/opt/app/home/user".toList ListSeparator), exampleFS) :=
  ⟨by decide, by decide, by decide,
   PrepareAssets_malformed 8 [] ["/opt/app:/home/user/build/app".toList]
    "/opt/app/home/user".toList "/tmp/rootfs".toList [] exampleFS exampleFS rfl (by decide)⟩

theorem validateAsset_eq_none_iff (ACIAsset localAsset : Str) (fs : FS) :
    validateAsset ACIAsset localAsset fs = none ↔
      IsAbs ACIAsset = true ∧ IsAbs localAsset = true ∧
        ∃ fi, Stat localAsset fs = .ok fi ∧ (fi.Mode.IsDir = true ∨ fi.Mode.IsRegular = true) := by
  unfold validateAsset
  cases h1 : IsAbs ACIAsset
  · simp
  · cases h2 : IsAbs localAsset
    · simp
    · cases h3 : Stat localAsset fs with
      | error e => simp
      | ok fi =>
        cases h4 : fi.Mode.IsDir <;> cases h5 : fi.Mode.IsRegular <;> simp [h4, h5]

theorem validateAsset_of_stat_error (ACIAsset localAsset : Str) (fs : FS) (err : Error)
    (h1 : IsAbs ACIAsset = true) (h2 : IsAbs localAsset = true)
    (h3 : Stat localAsset fs = .error err) :
    validateAsset ACIAsset localAsset fs = some (.SourceNotFound localAsset err) := by
  simp [validateAsset, h1, h2, h3]

/-- C3: `validateAsset` returns the error of the first rule that fails, in the
order destination not absolute, source not absolute, stat of the source fails,
source neither regular file nor directory; and it succeeds exactly when none
of them fails. -/
theorem validateAsset_first_failure (ACIAsset localAsset : Str) (fs : FS) :
    (IsAbs ACIAsset = false →
      validateAsset ACIAsset localAsset fs = some (.InvalidDestPath ACIAsset))
    ∧ (IsAbs ACIAsset = true → IsAbs localAsset = false →
      validateAsset ACIAsset localAsset fs = some (.InvalidSourcePath localAsset))
    ∧ (IsAbs ACIAsset = true → IsAbs localAsset = true →
      ∀ err, Stat localAsset fs = .error err →
        validateAsset ACIAsset localAsset fs = some (.SourceNotFound localAsset err))
    ∧ (IsAbs ACIAsset = true → IsAbs localAsset = true →
      ∀ fi, Stat localAsset fs = .ok fi → fi.Mode.IsDir = false → fi.Mode.IsRegular = false →
        validateAsset ACIAsset localAsset fs = some (.UnsupportedSourceType fi.Name))
    ∧ (validateAsset ACIAsset localAsset fs = none ↔
      IsAbs ACIAsset = true ∧ IsAbs localAsset = true ∧
        ∃ fi, Stat localAsset fs = .ok fi ∧ (fi.Mode.IsDir = true ∨ fi.Mode.IsRegular = true)) := by
  refine ⟨?_, ?_, ?_, ?_, ?_⟩
  · intro h
    simp [validateAsset, h]
  · intro h1 h2
    simp [validateAsset, h1, h2]
  · intro h1 h2 err h3
    simp [validateAsset, h1, h2, h3]
  · intro h1 h2 fi h3 h4 h5
    simp [validateAsset, h1, h2, h3, h4, h5]
  · unfold validateAsset
    cases h1 : IsAbs ACIAsset
    · simp
    · cases h2 : IsAbs localAsset
      · simp
      · cases h3 : Stat localAsset fs with
        | error e => simp
        | ok fi =>
          cases h4 : fi.Mode.IsDir <;> cases h5 : fi.Mode.IsRegular <;> simp [h4, h5]

/-- C4: when the resolved destination or the resolved source of a two-part spec
is not absolute, or stat of the resolved source fails, `PrepareAssets` returns
the validation error for that spec and the filesystem state is the one left by
the specs before it: nothing is created or written for the asset. -/
theorem PrepareAssets_validation_failure (fuel : Nat) (pre rest : List Str)
    (asset rootfs s0 s1 : Str) (m : List (Str × Str)) (fs fs1 : FS)
    (hpre : PrepareAssets fuel pre rootfs m fs = (.ok, fs1))
    (hs : SplitList asset = [s0, s1])
    (h : IsAbs (replacePlaceholders s0 m) = false ∨ IsAbs (replacePlaceholders s1 m) = false
      ∨ ∃ e, Stat (replacePlaceholders s1 m) fs1 = .error e) :
    ∃ err, validateAsset (replacePlaceholders s0 m) (replacePlaceholders s1 m) fs1 = some err
      ∧ PrepareAssets fuel (pre ++ asset :: rest) rootfs m fs = (.err err, fs1) := by
  have hv : ∃ err,
      validateAsset (replacePlaceholders s0 m) (replacePlaceholders s1 m) fs1 = some err := by
    unfold validateAsset
    cases h1 : IsAbs (replacePlaceholders s0 m)
    · exact ⟨.InvalidDestPath (replacePlaceholders s0 m), by simp⟩
    · cases h2 : IsAbs (replacePlaceholders s1 m)
      · exact ⟨.InvalidSourcePath (replacePlaceholders s1 m), by simp⟩
      · rcases h with h | h | ⟨e, he⟩
        · rw [h1] at h; cases h
        · rw [h2] at h; cases h
        · exact ⟨.SourceNotFound (replacePlaceholders s1 m) e, by simp [he]⟩
  obtain ⟨err, herr⟩ := hv
  refine ⟨err, herr, ?_⟩
  rw [PrepareAssets_append fuel pre _ rootfs m fs fs1 hpre]
  exact PrepareAssets_cons_of_not_ok fuel asset rest rootfs m fs1 fs1 _ (by simp)
    (prepareAsset_invalid fuel asset rootfs s0 s1 m fs1 err hs herr)

/-- The source "/home/user/missing" does not exist in the example state: the
asset is rejected and the state is unchanged. -/
theorem PrepareAssets_validation_failure_witness :
    ∃ err, validateAsset (replacePlaceholders "/opt/app".toList [])
        (replacePlaceholders "/home/user/missing".toList []) exampleFS = some err
      ∧ PrepareAssets 8 ([] ++ "/opt/app:/home/user/missing".toList :: []) "/tmp/rootfs".toList []
          exampleFS = (.err err, exampleFS) :=
  PrepareAssets_validation_failure 8 [] [] "/opt/app:/home/user/missing".toList
    "/tmp/rootfs".toList "/opt/app".toList "/home/user/missing".toList [] exampleFS exampleFS
    rfl (by decide)
    (Or.inr (Or.inr ⟨.pathError .stat "/home/user/missing".toList .enoent, by decide⟩))

/-! ## The errors of `PrepareAssets` -/

theorem validateAsset_error (ACIAsset localAsset : Str) (fs : FS) (e : Error)
    (h : validateAsset ACIAsset localAsset fs = some e) :
    e = .InvalidDestPath ACIAsset ∨ e = .InvalidSourcePath localAsset
    ∨ (∃ errno, e = .SourceNotFound localAsset (.pathError .stat localAsset errno))
    ∨ e = .UnsupportedSourceType (basename localAsset) := by
  unfold validateAsset at h
  split at h
  · left; simpa using h.symm
  · split at h
    · right; left; simpa using h.symm
    · split at h
      · rename_i err hstat
        right; right; left
        unfold Stat at hstat
        split at hstat
        · rename_i en _
          refine ⟨en, ?_⟩
          simp only [Except.error.injEq] at hstat
          simp only [Option.some.injEq] at h
          rw [← h, ← hstat]
        · refine ⟨.enoent, ?_⟩
          simp only [Except.error.injEq] at hstat
          simp only [Option.some.injEq] at h
          rw [← h, ← hstat]
        · cases hstat
      · rename_i fi hstat
        split at h
        · cases h
        · right; right; right
          unfold Stat at hstat
          split at hstat
          · cases hstat
          · cases hstat
          · simp only [Except.ok.injEq] at hstat
            simp only [Option.some.injEq] at h
            rw [← h, ← hstat]
            rfl

theorem prepareAsset_error (fuel : Nat) (asset rootfs : Str) (m : List (Str × Str))
    (fs fs1 : FS) (e : Error) (h : prepareAsset fuel asset rootfs m fs = (.err e, fs1)) :
    e = .MalformedAssetSpec asset ListSeparator
    ∨ (∃ c, e = .DirectoryCreationFailed asset c)
    ∨ (∃ c, e = .CopyFailed asset c)
    ∨ (∃ s0 s1, SplitList asset = [s0, s1]
        ∧ validateAsset (replacePlaceholders s0 m) (replacePlaceholders s1 m) fs = some e) := by
  unfold prepareAsset at h
  split at h
  · rename_i s0 s1 hs
    dsimp only at h
    cases hv : validateAsset (replacePlaceholders s0 m) (replacePlaceholders s1 m) fs with
    | some err =>
      right; right; right
      simp only [hv, Prod.mk.injEq, Res.err.injEq] at h
      exact ⟨s0, s1, hs, by rw [hv, h.1]⟩
    | none =>
      rcases hmk : MkdirAll (Join rootfs (Dir (replacePlaceholders s0 m))) 493 fs with ⟨r, fs2⟩
      cases r with
      | ok =>
        rcases hcopy : copyTree fuel (replacePlaceholders s1 m)
          (Join rootfs (replacePlaceholders s0 m)) fs2 with ⟨r2, fs3⟩
        simp only [hv, hmk, hcopy] at h
        cases r2 with
        | err c =>
          right; right; left
          simp only [Prod.mk.injEq, Res.err.injEq] at h
          exact ⟨c, h.1.symm⟩
        | ok => simp at h
        | panic => simp at h
        | outOfFuel => simp at h
      | err c =>
        right; left
        simp only [hv, hmk, Prod.mk.injEq, Res.err.injEq] at h
        exact ⟨c, h.1.symm⟩
      | panic => simp [hv, hmk] at h
      | outOfFuel => simp [hv, hmk] at h
  · left
    simp only [Prod.mk.injEq, Res.err.injEq] at h
    exact h.1.symm

/-- C8, as stated, fails: for the spec "opt:/home/user/build/app", whose
destination is not absolute, `PrepareAssets` returns the error of
`validateAsset` as it is, and the only value it carries is the destination
"opt", not the asset spec. -/
theorem PrepareAssets_error_without_spec :
    ¬ (∀ (fuel : Nat) (assets : List Str) (rootfs : Str) (m : List (Str × Str))
        (fs fs1 : FS) (e : Error),
        PrepareAssets fuel assets rootfs m fs = (.err e, fs1) →
        ∃ asset ∈ assets, asset ∈ e.values) := by
  intro h
  have h' := h 8 ["opt:/home/user/build/app".toList] "/tmp/rootfs".toList [] exampleFS exampleFS
    (.InvalidDestPath "opt".toList) (by decide)
  revert h'
  decide

/-- C8 (amended): when `PrepareAssets` fails, the error belongs to one of the
assets: for a malformed spec, a failed creation of the parent directories and a
failed tree copy it carries the raw asset spec; a validation failure is
returned as `validateAsset` built it, not wrapped, and carries the resolved
destination (`InvalidDestPath`), the resolved source (`InvalidSourcePath`,
`SourceNotFound` with the stat error) or the base name of the resolved source
(`UnsupportedSourceType`). -/
theorem PrepareAssets_error_context (fuel : Nat) (assets : List Str) (rootfs : Str)
    (m : List (Str × Str)) (fs fs1 : FS) (e : Error)
    (h : PrepareAssets fuel assets rootfs m fs = (.err e, fs1)) :
    ∃ asset ∈ assets,
      (asset ∈ e.values
        ∧ (e = .MalformedAssetSpec asset ListSeparator
          ∨ (∃ c, e = .DirectoryCreationFailed asset c)
          ∨ (∃ c, e = .CopyFailed asset c)))
      ∨ (∃ s0 s1, SplitList asset = [s0, s1]
        ∧ (e = .InvalidDestPath (replacePlaceholders s0 m)
          ∨ e = .InvalidSourcePath (replacePlaceholders s1 m)
          ∨ (∃ errno, e = .SourceNotFound (replacePlaceholders s1 m)
              (.pathError .stat (replacePlaceholders s1 m) errno))
          ∨ e = .UnsupportedSourceType (basename (replacePlaceholders s1 m)))) := by
  induction assets generalizing fs with
  | nil => simp [PrepareAssets] at h
  | cons a rest ih =>
    rw [PrepareAssets_cons] at h
    rcases hstep : prepareAsset fuel a rootfs m fs with ⟨r, fs2⟩
    rw [hstep] at h
    cases r with
    | ok =>
      obtain ⟨asset, hmem, hasset⟩ := ih fs2 h
      exact ⟨asset, List.mem_cons_of_mem _ hmem, hasset⟩
    | err e' =>
      simp only [Prod.mk.injEq, Res.err.injEq] at h
      obtain ⟨rfl, rfl⟩ := h
      refine ⟨a, List.mem_cons_self _ _, ?_⟩
      rcases prepareAsset_error fuel a rootfs m fs fs2 e' hstep with
        h1 | ⟨c, h1⟩ | ⟨c, h1⟩ | ⟨s0, s1, hs, hv⟩
      · left; subst h1; exact ⟨by simp [Error.values], Or.inl rfl⟩
      · left; subst h1; exact ⟨by simp [Error.values], Or.inr (Or.inl ⟨c, rfl⟩)⟩
      · left; subst h1; exact ⟨by simp [Error.values], Or.inr (Or.inr ⟨c, rfl⟩)⟩
      · right
        exact ⟨s0, s1, hs, validateAsset_error _ _ fs e' hv⟩
    | panic => simp at h
    | outOfFuel => simp at h

/-- The copy of "/home/user/build" in the example state fails at the named
pipe: the error wraps the asset spec. -/
theorem PrepareAssets_error_context_witness :
    ∃ asset ∈ ["/opt/build:/home/user/build".toList],
      (asset ∈ (Error.CopyFailed "/opt/build:/home/user/build".toList
          (.UnsupportedNodeType "/home/user/build/pipe".toList ⟨.other .fifo, 0o644⟩)).values
        ∧ (Error.CopyFailed "/opt/build:/home/user/build".toList
            (.UnsupportedNodeType "/home/user/build/pipe".toList ⟨.other .fifo, 0o644⟩)
              = .MalformedAssetSpec asset ListSeparator
          ∨ (∃ c, Error.CopyFailed "/opt/build:/home/user/build".toList
            (.UnsupportedNodeType "/home/user/build/pipe".toList ⟨.other .fifo, 0o644⟩)
              = .DirectoryCreationFailed asset c)
          ∨ (∃ c, Error.CopyFailed "/opt/build:/home/user/build".toList
            (.UnsupportedNodeType "/home/user/build/pipe".toList ⟨.other .fifo, 0o644⟩)
              = .CopyFailed asset c)))
      ∨ (∃ s0 s1, SplitList asset = [s0, s1]
        ∧ (Error.CopyFailed "/opt/build:/home/user/build".toList
            (.UnsupportedNodeType "/home/user/build/pipe".toList ⟨.other .fifo, 0o644⟩)
              = .InvalidDestPath (replacePlaceholders s0 [])
          ∨ Error.CopyFailed "/opt/build:/home/user/build".toList
            (.UnsupportedNodeType "/home/user/build/pipe".toList ⟨.other .fifo, 0o644⟩)
              = .InvalidSourcePath (replacePlaceholders s1 [])
          ∨ (∃ errno, Error.CopyFailed "/opt/build:/home/user/build".toList
            (.UnsupportedNodeType "/home/user/build/pipe".toList ⟨.other .fifo, 0o644⟩)
              = .SourceNotFound (replacePlaceholders s1 [])
              (.pathError .stat (replacePlaceholders s1 []) errno))
          ∨ Error.CopyFailed "/opt/build:/home/user/build".toList
            (.UnsupportedNodeType "/home/user/build/pipe".toList ⟨.other .fifo, 0o644⟩)
              = .UnsupportedSourceType (basename (replacePlaceholders s1 [])))) :=
  PrepareAssets_error_context 8 ["/opt/build:/home/user/build".toList] "/tmp/rootfs".toList []
    exampleFS
    (PrepareAssets 8 ["/opt/build:/home/user/build".toList] "/tmp/rootfs".toList []
      exampleFS).2
    (.CopyFailed "/opt/build:/home/user/build".toList
      (.UnsupportedNodeType "/home/user/build/pipe".toList ⟨.other .fifo, 0o644⟩))
    (by decide)

/-! ## A symbolic link as the source of an asset -/

/-- C5, as stated, fails: in the example state "/home/user/link" is a
symbolic link (to a regular file), and `validateAsset` accepts it. -/
theorem validateAsset_accepts_root_symlink :
    ¬ (∀ (ACIAsset localAsset : Str) (fs : FS) (fi : FileInfo),
        IsAbs localAsset = true → Lstat localAsset fs = .ok fi → fi.Mode.isSymlink = true →
        validateAsset ACIAsset localAsset fs ≠ none) := by
  intro h
  exact h "/opt/run".toList "/home/user/link".toList exampleFS
    ⟨"link".toList, ⟨.symlink, 0o777⟩⟩ (by decide) (by decide) (by decide) (by decide)

theorem copyTree_not_dir (fuel : Nat) (src dest : Str) (fs : FS) (fi : FileInfo)
    (hl : Lstat src fs = .ok fi) (hd : fi.IsDir = false) :
    copyTree (fuel + 1) src dest fs = copyTreeFn src dest src (some fi) none fs := by
  unfold copyTree Walk
  rw [hl]
  simp only [walk, hd, Bool.not_false, if_true]

/-! ## A source path that is not in cleaned form -/

/-- C9 fails on the code: the source "/home/user/build/./././app" passes
`validateAsset`, the walk visits its entry `bin` under the cleaned path
"/home/user/build/app/bin", which is shorter than the source and does not start
with it, and the slice `path[len(src):]` panics. With the source
"/home/user/build/./app" the slice is defined but cuts into the name: the
directory `bin` is created at the destination as `in`. -/
theorem copyTree_unclean_source :
    validateAsset "/opt/app".toList "/home/user/build/./././app".toList exampleFS = none
    ∧ readDirNames "/home/user/build/./././app".toList exampleFS
        = .ok ["bin".toList, "latest".toList]
    ∧ Join "/home/user/build/./././app".toList "bin".toList = "/home/user/build/app/bin".toList
    ∧ (Join "/home/user/build/./././app".toList "bin".toList).length
        < "/home/user/build/./././app".toList.length
    ∧ (copyTree 8 "/home/user/build/./././app".toList "/tmp/rootfs/app".toList exampleFS).1
        = .panic
    ∧ (PrepareAssets 8 ["/opt/app:/home/user/build/./././app".toList] "/tmp/rootfs".toList []
        exampleFS).1 = .panic
    ∧ validateAsset "/opt/app".toList "/home/user/build/./app".toList exampleFS = none
    ∧ (copyTree 8 "/home/user/build/./app".toList "/tmp/rootfs/app".toList exampleFS).1 = .ok
    ∧ (copyTree 8 "/home/user/build/./app".toList "/tmp/rootfs/app".toList exampleFS).2.get
        ["tmp".toList, "rootfs".toList, "app".toList, "in".toList] = some (.dir 0o755)
    ∧ (copyTree 8 "/home/user/build/./app".toList "/tmp/rootfs/app".toList exampleFS).2.get
        ["tmp".toList, "rootfs".toList, "app".toList, "bin".toList] = none := by
  decide

/-! ## Path strings -/

theorem splitOn_ne_nil (sep : Char) (s : Str) : splitOn sep s ≠ [] := by
  cases s with
  | nil => simp [splitOn]
  | cons c cs =>
    unfold splitOn
    split
    · simp
    · split <;> simp

theorem splitOn_cons_sep (sep : Char) (s : Str) :
    splitOn sep (sep :: s) = [] :: splitOn sep s := by
  rw [splitOn]; simp

theorem splitOn_cons_ne (sep c : Char) (s h : Str) (t : List Str) (hc : c ≠ sep)
    (hs : splitOn sep s = h :: t) : splitOn sep (c :: s) = (c :: h) :: t := by
  rw [splitOn]; simp [hc, hs]

theorem splitOn_append_name (sep : Char) (n s h : Str) (t : List Str) (hn : sep ∉ n)
    (hs : splitOn sep s = h :: t) : splitOn sep (n ++ s) = (n ++ h) :: t := by
  induction n with
  | nil => simpa using hs
  | cons c n ih =>
    have hc : c ≠ sep := fun e => hn (by simp [e])
    have hn' : sep ∉ n := fun e => hn (by simp [e])
    rw [List.cons_append, splitOn_cons_ne sep c _ _ _ hc (ih hn')]
    rfl

theorem splitOn_name (sep : Char) (n : Str) (hn : sep ∉ n) : splitOn sep n = [n] := by
  have h := splitOn_append_name sep n [] [] [] hn (by simp [splitOn])
  simpa using h

theorem splitOn_append_sep (sep : Char) (a b : Str) :
    splitOn sep (a ++ sep :: b) = splitOn sep a ++ splitOn sep b := by
  induction a with
  | nil => simp [splitOn_cons_sep, splitOn]
  | cons c a ih =>
    by_cases hc : c = sep
    · subst hc
      rw [List.cons_append, splitOn_cons_sep, splitOn_cons_sep, ih]
      rfl
    · cases hs : splitOn sep a with
      | nil => exact absurd hs (splitOn_ne_nil sep a)
      | cons h t =>
        rw [List.cons_append, splitOn_cons_ne sep c _ h (t ++ splitOn sep b) hc (by rw [ih, hs]; rfl),
          splitOn_cons_ne sep c _ h t hc hs]
        rfl

theorem absPath_nil : absPath [] = [] := rfl

theorem absPath_cons (n : Str) (p : CPath) : absPath (n :: p) = '/' :: (n ++ absPath p) := by
  simp [absPath, List.flatMap_cons]

theorem absPath_append (p q : CPath) : absPath (p ++ q) = absPath p ++ absPath q := by
  simp [absPath, List.flatMap_append]

theorem absPath_ne_nil (p : CPath) (hp : p ≠ []) : absPath p ≠ [] := by
  cases p with
  | nil => exact absurd rfl hp
  | cons n p => simp [absPath_cons]

theorem IsAbs_absPath_append (p : CPath) (hp : p ≠ []) (s : Str) :
    IsAbs (absPath p ++ s) = true := by
  cases p with
  | nil => exact absurd rfl hp
  | cons n p => simp [absPath_cons, IsAbs]

theorem IsAbs_absPath (p : CPath) (hp : p ≠ []) : IsAbs (absPath p) = true := by
  simpa using IsAbs_absPath_append p hp []

theorem splitOn_absPath (p : CPath) (hp : ∀ n ∈ p, '/' ∉ n) :
    splitOn '/' (absPath p) = [] :: p := by
  induction p with
  | nil => simp [absPath_nil, splitOn]
  | cons n p ih =>
    have h1 : '/' ∉ n := hp n (List.mem_cons_self _ _)
    have h2 := ih (fun x hx => hp x (List.mem_cons_of_mem _ hx))
    rw [absPath_cons, splitOn_cons_sep, splitOn_append_name '/' n _ [] p h1 h2]
    simp

theorem cleanStep_plain (rooted : Bool) (out : List Str) (c : Str) (hc : PlainName c) :
    cleanStep rooted out c = out ++ [c] := by
  obtain ⟨h1, h2, h3, _⟩ := hc
  simp [cleanStep, h1, h2, h3]

theorem cleanStep_nil (rooted : Bool) (out : List Str) : cleanStep rooted out [] = out := by
  simp [cleanStep]

theorem foldl_cleanStep (rooted : Bool) (comps out : List Str)
    (h : ∀ c ∈ comps, c = [] ∨ PlainName c) :
    comps.foldl (cleanStep rooted) out = out ++ comps.filter (fun c => c ≠ []) := by
  induction comps generalizing out with
  | nil => simp
  | cons c comps ih =>
    have ih' := fun out => ih out (fun x hx => h x (List.mem_cons_of_mem _ hx))
    rcases h c (List.mem_cons_self _ _) with hc | hc
    · subst hc
      simp [List.foldl_cons, cleanStep_nil, ih']
    · have hne : c ≠ [] := hc.1
      simp [List.foldl_cons, cleanStep_plain rooted out c hc, ih', hne]

theorem intercalate_absPath (p : CPath) (hp : p ≠ []) :
    '/' :: List.intercalate ['/'] p = absPath p := by
  induction p with
  | nil => exact absurd rfl hp
  | cons n p ih =>
    cases p with
    | nil => simp [List.intercalate, List.intersperse, absPath]
    | cons n' p' =>
      have h := ih (by simp)
      rw [absPath_cons, ← h]
      simp [List.intercalate, List.intersperse]

/-- A rooted path whose elements are plain names or empty cleans to the
absolute path of its names. -/
theorem Clean_of_parts (s : Str) (hs : IsAbs s = true)
    (hparts : ∀ c ∈ splitOn '/' s, c = [] ∨ PlainName c)
    (hne : (splitOn '/' s).filter (fun c => c ≠ []) ≠ []) :
    Clean s = absPath ((splitOn '/' s).filter (fun c => c ≠ [])) := by
  unfold Clean cleanComps
  rw [foldl_cleanStep _ _ _ hparts]
  simp only [hs, if_true, List.nil_append]
  exact intercalate_absPath _ hne

theorem plain_no_slash {p : CPath} (hp : ∀ n ∈ p, PlainName n) : ∀ n ∈ p, '/' ∉ n :=
  fun n hn => (hp n hn).2.2.2

theorem filter_ne_nil_plain (p : CPath) (hp : ∀ n ∈ p, PlainName n) :
    p.filter (fun c => c ≠ []) = p := by
  rw [List.filter_eq_self]
  intro n hn
  simpa using (hp n hn).1

theorem filter_nil_cons (l : List Str) :
    ([] :: l).filter (fun c => c ≠ []) = l.filter (fun c => c ≠ []) :=
  List.filter_cons_of_neg (by simp)

theorem filter_parts (p q : CPath) (hp : ∀ n ∈ p, PlainName n) (hq : ∀ n ∈ q, PlainName n) :
    (([] :: p) ++ ([] :: q)).filter (fun c => c ≠ []) = p ++ q := by
  rw [List.filter_append, filter_nil_cons, filter_nil_cons, filter_ne_nil_plain p hp,
    filter_ne_nil_plain q hq]

theorem filter_parts_name (p : CPath) (n : Str) (hp : ∀ n ∈ p, PlainName n) (hn : PlainName n) :
    (([] :: p) ++ [n]).filter (fun c => c ≠ []) = p ++ [n] := by
  rw [List.filter_append, filter_nil_cons, filter_ne_nil_plain p hp,
    filter_ne_nil_plain [n] (by simpa using hn)]

/-- Joining a clean absolute path with a relative clean path. -/
theorem Join_absPath (p q : CPath) (hp : p ≠ []) (hpp : ∀ n ∈ p, PlainName n)
    (hq : ∀ n ∈ q, PlainName n) :
    Join (absPath p) (absPath q) = absPath (p ++ q) := by
  have hsplit : splitOn '/' (absPath p ++ '/' :: absPath q) = ([] :: p) ++ ([] :: q) := by
    rw [splitOn_append_sep, splitOn_absPath p (plain_no_slash hpp),
      splitOn_absPath q (plain_no_slash hq)]
  unfold Join
  rw [if_pos (absPath_ne_nil p hp)]
  rw [Clean_of_parts _ (IsAbs_absPath_append p hp _)]
  · rw [hsplit, filter_parts p q hpp hq]
  · rw [hsplit]
    intro c hc
    simp only [List.cons_append, List.nil_append, List.mem_cons, List.mem_append] at hc
    rcases hc with h | h | h | h
    · exact Or.inl h
    · exact Or.inr (hpp c h)
    · exact Or.inl h
    · exact Or.inr (hq c h)
  · rw [hsplit, filter_parts p q hpp hq]
    simp [hp]

/-- Joining a clean absolute path with a name, as `walk` does. -/
theorem Join_absPath_name (p : CPath) (n : Str) (hp : p ≠ []) (hpp : ∀ n ∈ p, PlainName n)
    (hn : PlainName n) : Join (absPath p) n = absPath (p ++ [n]) := by
  have hsplit : splitOn '/' (absPath p ++ '/' :: n) = ([] :: p) ++ [n] := by
    rw [splitOn_append_sep, splitOn_absPath p (plain_no_slash hpp), splitOn_name '/' n hn.2.2.2]
  unfold Join
  rw [if_pos (absPath_ne_nil p hp)]
  rw [Clean_of_parts _ (IsAbs_absPath_append p hp _)]
  · rw [hsplit, filter_parts_name p n hpp hn]
  · rw [hsplit]
    intro c hc
    simp only [List.cons_append, List.nil_append, List.mem_cons, List.mem_append,
      List.mem_singleton, List.not_mem_nil, or_false] at hc
    rcases hc with h | h | h
    · exact Or.inl h
    · exact Or.inr (hpp c h)
    · exact Or.inr (h ▸ hn)
  · rw [hsplit, filter_parts_name p n hpp hn]
    simp

/-! ## Lookup in the filesystem state -/

theorem findNode_append_of_not_mem (a b : List (CPath × Node)) (p : CPath)
    (h : ∀ e ∈ a, e.1 ≠ p) : findNode (a ++ b) p = findNode b p := by
  induction a with
  | nil => rfl
  | cons e a ih =>
    obtain ⟨q, n⟩ := e
    have hq : q ≠ p := h (q, n) (List.mem_cons_self _ _)
    simp only [List.cons_append, findNode, hq, if_false]
    exact ih (fun x hx => h x (List.mem_cons_of_mem _ hx))

theorem findNode_eq_none_iff (l : List (CPath × Node)) (p : CPath) :
    findNode l p = none ↔ ∀ e ∈ l, e.1 ≠ p := by
  induction l with
  | nil => simp [findNode]
  | cons e l ih =>
    obtain ⟨q, n⟩ := e
    by_cases hq : q = p
    · constructor
      · intro h
        rw [findNode, if_pos hq] at h
        cases h
      · intro h
        exact absurd hq (h (q, n) (List.mem_cons_self _ _))
    · rw [findNode, if_neg hq, ih]
      constructor
      · intro h e he
        rcases List.mem_cons.1 he with rfl | he'
        · exact hq
        · exact h e he'
      · intro h e he
        exact h e (List.mem_cons_of_mem _ he)

theorem findNode_mem (l : List (CPath × Node)) (p : CPath) (n : Node)
    (h : findNode l p = some n) : (p, n) ∈ l := by
  induction l with
  | nil => simp [findNode] at h
  | cons e l ih =>
    obtain ⟨q, m⟩ := e
    by_cases hq : q = p
    · simp only [findNode, hq, if_true, Option.some.injEq] at h
      rw [hq, h]
      exact List.mem_cons_self _ _
    · simp only [findNode, hq, if_false] at h
      exact List.mem_cons_of_mem _ (ih h)

theorem FS.get_mem (fs : FS) (p : CPath) (n : Node) (h : fs.get p = some n) :
    (p, n) ∈ fs.nodes :=
  findNode_mem fs.nodes p n h

theorem FS.get_eq_none_iff (fs : FS) (p : CPath) :
    fs.get p = none ↔ ∀ e ∈ fs.nodes, e.1 ≠ p :=
  findNode_eq_none_iff fs.nodes p

theorem FS.get_append_of_not_mem (fs : FS) (added : List (CPath × Node)) (p : CPath)
    (h : ∀ e ∈ added, e.1 ≠ p) : (fs.append added).get p = fs.get p :=
  findNode_append_of_not_mem added fs.nodes p h

theorem FS.put_eq_append (fs : FS) (p : CPath) (n : Node) : fs.put p n = fs.append [(p, n)] := rfl

theorem FS.append_append (fs : FS) (a b : List (CPath × Node)) :
    (fs.append a).append b = fs.append (b ++ a) := by
  simp [FS.append]

theorem FS.append_nil (fs : FS) : fs.append [] = fs := rfl

theorem FS.get_put_self (fs : FS) (p : CPath) (n : Node) : (fs.put p n).get p = some n := by
  simp [FS.put, FS.get, findNode]

theorem FS.get_put_of_ne (fs : FS) (p q : CPath) (n : Node) (h : p ≠ q) :
    (fs.put p n).get q = fs.get q := by
  simp [FS.put, FS.get, findNode, h]

theorem FS.isDir_iff (fs : FS) (p : CPath) :
    fs.isDir p = true ↔ ∃ perm, fs.get p = some (.dir perm) := by
  unfold FS.isDir
  split
  · rename_i perm h; simp [h]
  · rename_i h
    constructor
    · intro h'; cases h'
    · rintro ⟨perm, hp⟩; exact absurd hp (h perm)

/-! ## Path resolution of clean absolute paths -/

theorem lookupComps_cons_dir (fs : FS) (follow : Bool) (cur : CPath) (c : Str)
    (rest : List Str) (perm : Nat) (hc : PlainName c)
    (hget : fs.get (cur ++ [c]) = some (.dir perm)) :
    lookupComps fs follow cur (c :: rest) = lookupComps fs follow (cur ++ [c]) rest := by
  obtain ⟨h1, h2, h3, _⟩ := hc
  rw [lookupComps]
  simp [h1, h2, h3, hget]

theorem lookupComps_plain (fs : FS) (follow : Bool) (comps : List Str) :
    ∀ cur : CPath, comps ≠ [] → (∀ c ∈ comps, PlainName c) →
      (∀ k, 0 < k → k < comps.length → fs.isDir (cur ++ comps.take k) = true) →
      (follow = true → ∀ t, fs.get (cur ++ comps) ≠ some (.symlink t)) →
      lookupComps fs follow cur comps = .done (.ok (cur ++ comps, fs.get (cur ++ comps))) := by
  induction comps with
  | nil => intro cur h; exact absurd rfl h
  | cons c rest ih =>
    intro cur _ hplain hdirs hfollow
    obtain ⟨h1, h2, h3, _⟩ := hplain c (List.mem_cons_self _ _)
    cases rest with
    | nil =>
      cases hget : fs.get (cur ++ [c]) with
      | none => simp [lookupComps, h1, h2, h3, hget]
      | some node =>
        cases node with
        | dir perm => simp [lookupComps, h1, h2, h3, hget]
        | file perm data => simp [lookupComps, h1, h2, h3, hget]
        | symlink t =>
          cases follow with
          | false => simp [lookupComps, h1, h2, h3, hget]
          | true => exact absurd hget (hfollow rfl t)
        | special k perm => simp [lookupComps, h1, h2, h3, hget]
    | cons c' rest' =>
      have hd := hdirs 1 (by omega) (by simp)
      simp only [List.take_succ_cons, List.take_zero] at hd
      rw [FS.isDir_iff] at hd
      obtain ⟨perm, hget⟩ := hd
      have hrec := ih (cur ++ [c]) (by simp)
        (fun x hx => hplain x (List.mem_cons_of_mem _ hx))
        (fun k hk1 hk2 => by
          have := hdirs (k + 1) (by omega) (by simp at hk2 ⊢; omega)
          simpa using this)
        (fun hf t => by simpa using hfollow hf t)
      rw [lookupComps_cons_dir fs follow cur c _ perm (hplain c (List.mem_cons_self _ _)) hget]
      simpa using hrec

/-- Resolution of the clean absolute path of `q`, all of whose proper parents
are directories: the location is `q` itself. -/
theorem resolve_absPath (fs : FS) (follow : Bool) (q : CPath) (hq : q ≠ [])
    (hplain : ∀ n ∈ q, PlainName n)
    (hdirs : ∀ k, 0 < k → k < q.length → fs.isDir (q.take k) = true)
    (hfollow : follow = true → ∀ t, fs.get q ≠ some (.symlink t)) :
    fs.resolve (absPath q) follow = .ok (q, fs.get q) := by
  unfold FS.resolve
  rw [if_neg (absPath_ne_nil q hq), IsAbs_absPath q hq, splitOn_absPath q (plain_no_slash hplain)]
  have h := lookupComps_plain fs follow q [] hq hplain (by simpa using hdirs)
    (by simpa using hfollow)
  simp only [if_true, resolveFrom, lookupComps, true_or, List.nil_append] at h ⊢
  rw [h]

/-! ## Directory entries -/

theorem dropLast_getLast?_iff (l p : CPath) (n : Str) :
    (l.dropLast = p ∧ l.getLast? = some n) ↔ l = p ++ [n] := by
  constructor
  · rintro ⟨h1, h2⟩
    have h := List.dropLast_append_getLast? n (by simpa using h2)
    rw [h1] at h
    exact h.symm
  · intro h
    subst h
    simp

theorem mem_childNames (fs : FS) (p : CPath) (n : Str) :
    n ∈ fs.childNames p ↔ ∃ e ∈ fs.nodes, e.1 = p ++ [n] := by
  unfold FS.childNames
  rw [(List.perm_insertionSort _ _).mem_iff, List.mem_dedup, List.mem_filterMap]
  constructor
  · rintro ⟨e, he, h⟩
    refine ⟨e, he, ?_⟩
    split at h
    · rename_i hd
      exact (dropLast_getLast?_iff e.1 p n).1 ⟨hd, h⟩
    · cases h
  · rintro ⟨e, he, h⟩
    refine ⟨e, he, ?_⟩
    obtain ⟨h1, h2⟩ := (dropLast_getLast?_iff e.1 p n).2 h
    rw [if_pos h1, h2]

theorem nodup_childNames (fs : FS) (p : CPath) : (fs.childNames p).Nodup := by
  unfold FS.childNames
  rw [(List.perm_insertionSort _ _).nodup_iff]
  exact List.nodup_dedup _

theorem get_of_mem_childNames (fs : FS) (p : CPath) (n : Str) (h : n ∈ fs.childNames p) :
    ∃ node, fs.get (p ++ [n]) = some node := by
  obtain ⟨e, he, hk⟩ := (mem_childNames fs p n).1 h
  cases hget : fs.get (p ++ [n]) with
  | none => exact absurd hk ((fs.get_eq_none_iff _).1 hget e he)
  | some node => exact ⟨node, rfl⟩

theorem childNames_append (fs : FS) (added : List (CPath × Node)) (p : CPath)
    (h : ∀ e ∈ added, ∀ n, e.1 ≠ p ++ [n]) :
    (fs.append added).childNames p = fs.childNames p := by
  unfold FS.childNames FS.append
  have hnil : added.filterMap (fun e => if e.1.dropLast = p then e.1.getLast? else none) = [] := by
    rw [List.filterMap_eq_nil_iff]
    intro e he
    split
    · rename_i hd
      cases hl : e.1.getLast? with
      | none => rfl
      | some n => exact absurd ((dropLast_getLast?_iff e.1 p n).1 ⟨hd, hl⟩) (h e he n)
    · rfl
  simp only [List.filterMap_append, hnil, List.nil_append]

/-! ## States that extend the initial state below the destination -/

theorem Extends.refl (fs0 : FS) (D : CPath) : Extends fs0 fs0 D :=
  ⟨[], rfl, by simp⟩

theorem Extends.append {fs0 fs : FS} {D : CPath} (h : Extends fs0 fs D)
    (more : List (CPath × Node)) (hmore : ∀ e ∈ more, D <+: e.1) :
    Extends fs0 (fs.append more) D := by
  obtain ⟨added, rfl, hadded⟩ := h
  refine ⟨more ++ added, by rw [FS.append_append], ?_⟩
  intro e he
  rcases List.mem_append.1 he with h1 | h1
  · exact hmore e h1
  · exact hadded e h1

theorem Extends.masked {fs0 fs : FS} {D : CPath} (h : Extends fs0 fs D) (perm : Nat) :
    fs.masked perm = fs0.masked perm := by
  obtain ⟨added, rfl, _⟩ := h
  rfl

theorem Extends.get_of_not_under {fs0 fs : FS} {D : CPath} (h : Extends fs0 fs D) (p : CPath)
    (hp : ¬ D <+: p) : fs.get p = fs0.get p := by
  obtain ⟨added, rfl, hadded⟩ := h
  apply FS.get_append_of_not_mem
  intro e he hk
  exact hp (hk ▸ hadded e he)

theorem FS.get_append_not_under (fs : FS) (added : List (CPath × Node)) (D p : CPath)
    (hadded : ∀ e ∈ added, D <+: e.1) (hp : ¬ D <+: p) : (fs.append added).get p = fs.get p := by
  apply FS.get_append_of_not_mem
  intro e he hk
  exact hp (hk ▸ hadded e he)

/-! ## The system calls on resolved paths -/

theorem Lstat_of_resolve (fs : FS) (name : Str) (p : CPath) (n : Node)
    (h : fs.resolve name false = .ok (p, some n)) :
    Lstat name fs = .ok ⟨basename name, n.mode⟩ := by
  simp [Lstat, h]

theorem Stat_of_resolve (fs : FS) (name : Str) (p : CPath) (n : Node)
    (h : fs.resolve name true = .ok (p, some n)) :
    Stat name fs = .ok ⟨basename name, n.mode⟩ := by
  simp [Stat, h]

theorem Mkdir_of_resolve (fs : FS) (name : Str) (perm : Nat) (p : CPath)
    (h : fs.resolve name false = .ok (p, none)) :
    Mkdir name perm fs = (.ok, fs.put p (.dir (fs.masked perm))) := by
  simp [Mkdir, h]

theorem Symlink_of_resolve (fs : FS) (oldname newname : Str) (p : CPath) (ho : oldname ≠ [])
    (h : fs.resolve newname false = .ok (p, none)) :
    Symlink oldname newname fs = (.ok, fs.put p (.symlink oldname)) := by
  simp [Symlink, ho, h]

theorem Readlink_of_resolve (fs : FS) (name : Str) (p : CPath) (t : Str)
    (h : fs.resolve name false = .ok (p, some (.symlink t))) :
    Readlink name fs = .ok t := by
  simp [Readlink, h]

theorem copyRegularFile_of_resolve (fs : FS) (src dest : Str) (p q : CPath) (perm : Nat)
    (data : List Nat) (hpq : p ≠ q)
    (hs : fs.resolve src true = .ok (p, some (.file perm data)))
    (hget : fs.get p = some (.file perm data))
    (hd : fs.resolve dest true = .ok (q, none)) :
    copyRegularFile src dest fs
      = (.ok, fs.append [(q, .file (fs.masked 0o666) data), (q, .file (fs.masked 0o666) [])]) := by
  have h1 : (fs.put q (.file (fs.masked 0o666) [])).get p = some (.file perm data) := by
    rw [FS.get_put_of_ne fs q p _ (Ne.symm hpq)]; exact hget
  have h2 := FS.get_put_self fs q (.file (fs.masked 0o666) [])
  simp only [copyRegularFile, Open, hs, Create, hd, h1, h2]
  rfl

theorem readDirNames_of_resolve (fs : FS) (name : Str) (p : CPath) (perm : Nat)
    (h : fs.resolve name true = .ok (p, some (.dir perm))) :
    readDirNames name fs = .ok (fs.childNames p) := by
  simp [readDirNames, h]

/-! ## The callback of `copyTree` on one node -/

section Copy

variable {fs0 : FS} {src dest : Str} {S D : CPath}

theorem CopySetup.not_under (hset : CopySetup fs0 src dest S D) (p : CPath) (n : Node)
    (hget : fs0.get p = some n) : ¬ D <+: p :=
  hset.dest_free (p, n) (fs0.get_mem p n hget)

theorem CopySetup.get_ext (hset : CopySetup fs0 src dest S D) {fs : FS}
    (hext : Extends fs0 fs D) (p : CPath) (n : Node) (hget : fs0.get p = some n) :
    fs.get p = some n := by
  rw [hext.get_of_not_under p (hset.not_under p n hget), hget]

theorem CopySetup.isDir_ext (hset : CopySetup fs0 src dest S D) {fs : FS}
    (hext : Extends fs0 fs D) (p : CPath) (h : fs0.isDir p = true) : fs.isDir p = true := by
  rw [FS.isDir_iff] at h ⊢
  obtain ⟨perm, hp⟩ := h
  exact ⟨perm, hset.get_ext hext p _ hp⟩

theorem CopySetup.resolve_source (hset : CopySetup fs0 src dest S D) {fs : FS}
    (hext : Extends fs0 fs D) (r : CPath) (node : Node) (follow : Bool)
    (hnode : fs0.get (S ++ r) = some node)
    (hplain : ∀ n ∈ r, PlainName n)
    (hanc : ∀ k, 0 < k → k < (S ++ r).length → fs0.isDir ((S ++ r).take k) = true)
    (hfollow : follow = true → ∀ t, node ≠ .symlink t) :
    fs.resolve (absPath (S ++ r)) follow = .ok (S ++ r, some node) := by
  have hget := hset.get_ext hext _ _ hnode
  rw [resolve_absPath fs follow (S ++ r) (by simp [hset.src_ne])
    (fun n hn => by
      rcases List.mem_append.1 hn with h | h
      · exact hset.src_plain n h
      · exact hplain n h)
    (fun k h1 h2 => hset.isDir_ext hext _ (hanc k h1 h2))
    (fun hf t => by rw [hget]; intro h; exact hfollow hf t (by simpa using h)), hget]

theorem CopySetup.resolve_target (hset : CopySetup fs0 src dest S D) {fs : FS}
    (hext : Extends fs0 fs D) (r : CPath) (follow : Bool)
    (hplain : ∀ n ∈ r, PlainName n)
    (hdanc : ∀ k, k < r.length → fs.isDir (D ++ r.take k) = true)
    (hfree : fs.get (D ++ r) = none) :
    fs.resolve (absPath (D ++ r)) follow = .ok (D ++ r, none) := by
  rw [resolve_absPath fs follow (D ++ r) (by simp [hset.dest_ne])
    (fun n hn => by
      rcases List.mem_append.1 hn with h | h
      · exact hset.dest_plain n h
      · exact hplain n h)
    (fun k h1 h2 => by
      rw [List.take_append_eq_append_take]
      by_cases hk : k < D.length
      · have h0 : k - D.length = 0 := by omega
        rw [h0]
        simpa using hset.isDir_ext hext _ (hset.dest_above k hk h1)
      · rw [List.take_of_length_le (by omega)]
        apply hdanc
        simp at h2
        omega)
    (fun _ t => by rw [hfree]; simp), hfree]

theorem CopySetup.copyTreeFn_node (hset : CopySetup fs0 src dest S D) {fs : FS}
    (hext : Extends fs0 fs D) (r : CPath) (node : Node) (info : FileInfo)
    (hnode : fs0.get (S ++ r) = some node) (hinfo : info.mode = node.mode)
    (hplain : ∀ n ∈ r, PlainName n)
    (hanc : ∀ k, 0 < k → k < (S ++ r).length → fs0.isDir ((S ++ r).take k) = true)
    (hlink : node ≠ .symlink [])
    (hdanc : ∀ k, k < r.length → fs.isDir (D ++ r.take k) = true)
    (hfree : fs.get (D ++ r) = none) :
    copyTreeFn src dest (absPath (S ++ r)) (some info) none fs
      = match node with
        | .special _ _ => (.err (.UnsupportedNodeType (absPath (S ++ r)) info.mode), fs)
        | _ => (.ok, fs.append (written fs0 (D ++ r) node)) := by
  have hlen : ¬ (absPath (S ++ r)).length < src.length := by
    rw [hset.src_eq, absPath_append, List.length_append]; omega
  have hdrop : (absPath (S ++ r)).drop src.length = absPath r := by
    rw [hset.src_eq, absPath_append, List.drop_left]
  have htarget : Join dest (absPath r) = absPath (D ++ r) := by
    rw [hset.dest_eq]
    exact Join_absPath D r hset.dest_ne hset.dest_plain hplain
  have hT := fun follow => hset.resolve_target hext r follow hplain hdanc hfree
  simp only [copyTreeFn, hlen, if_false, hdrop, htarget, FileInfo.Mode, hinfo]
  cases node with
  | dir perm =>
    simp only [Node.mode, FileMode.IsDir, decide_True, if_true, FileMode.Perm]
    rw [Mkdir_of_resolve fs _ perm _ (hT false), hext.masked]
    rfl
  | file perm data =>
    have hS := hset.resolve_source hext r _ true hnode hplain hanc (by simp)
    have hne : S ++ r ≠ D ++ r := by
      intro h
      exact hset.not_under _ _ hnode (h ▸ List.prefix_append D r)
    simp only [Node.mode, FileMode.IsDir, FileMode.IsRegular, decide_True, if_true]
    rw [if_neg (by simp)]
    rw [copyRegularFile_of_resolve fs _ _ (S ++ r) (D ++ r) perm data hne hS
      (hset.get_ext hext _ _ hnode) (hT true), hext.masked]
    rfl
  | symlink t =>
    have hS := hset.resolve_source hext r _ false hnode hplain hanc (by simp)
    have ht : t ≠ [] := fun h => hlink (by rw [h])
    simp only [Node.mode, FileMode.IsDir, FileMode.IsRegular, FileMode.isSymlink, decide_True,
      if_true]
    rw [if_neg (by simp), if_neg (by simp)]
    simp only [copySymlink, Readlink_of_resolve fs _ _ t hS]
    rw [Symlink_of_resolve fs t _ _ ht (hT false)]
    rfl
  | special k perm =>
    simp [Node.mode, FileMode.IsDir, FileMode.IsRegular, FileMode.isSymlink]

end Copy

/-! ## The pure description of a copy -/

theorem copySeq_res (fs : FS) (S D : CPath) (ps : List CPath) :
    (copySeq fs S D ps).1 = .ok ∨ ∃ e, (copySeq fs S D ps).1 = .err e := by
  induction ps with
  | nil => exact Or.inl rfl
  | cons p ps ih =>
    rw [copySeq]
    split
    · exact ih
    · exact Or.inr ⟨_, rfl⟩
    · exact ih

theorem copySeq_append (fs : FS) (S D : CPath) (l1 l2 : List CPath) :
    copySeq fs S D (l1 ++ l2)
      = if (copySeq fs S D l1).1 = .ok then
          ((copySeq fs S D l2).1, (copySeq fs S D l2).2 ++ (copySeq fs S D l1).2)
        else copySeq fs S D l1 := by
  induction l1 with
  | nil => simp [copySeq]
  | cons p l1 ih =>
    rw [List.cons_append]
    cases hget : fs.get p with
    | none =>
      rw [copySeq, copySeq]
      simp only [hget]
      exact ih
    | some node =>
      cases node with
      | special k perm =>
        rw [copySeq, copySeq]
        simp only [hget]
        simp
      | dir perm =>
        rw [copySeq, copySeq]
        simp only [hget, ih]
        split <;> simp
      | file perm data =>
        rw [copySeq, copySeq]
        simp only [hget, ih]
        split <;> simp
      | symlink t =>
        rw [copySeq, copySeq]
        simp only [hget, ih]
        split <;> simp

theorem written_keys (fs : FS) (key : CPath) (node : Node) :
    ∀ e ∈ written fs key node, e.1 = key := by
  intro e he
  cases node <;> simp [written] at he
  · rw [he]
  · rcases he with h | h <;> rw [h]
  · rw [he]

theorem copySeq_keys (fs : FS) (S D : CPath) (ps : List CPath) :
    ∀ e ∈ (copySeq fs S D ps).2, ∃ p ∈ ps, e.1 = D ++ p.drop S.length := by
  induction ps with
  | nil => intro e he; simp [copySeq] at he
  | cons p ps ih =>
    intro e he
    rw [copySeq] at he
    split at he
    · obtain ⟨q, hq, h⟩ := ih e he
      exact ⟨q, List.mem_cons_of_mem _ hq, h⟩
    · simp at he
    · rcases List.mem_append.1 he with h | h
      · obtain ⟨q, hq, h'⟩ := ih e h
        exact ⟨q, List.mem_cons_of_mem _ hq, h'⟩
      · exact ⟨p, List.mem_cons_self _ _, written_keys fs _ _ e h⟩

theorem subtree_under (fs : FS) (fuel : Nat) :
    ∀ (P p : CPath), p ∈ subtree fs fuel P → P <+: p := by
  induction fuel with
  | zero => intro P p h; simp [subtree] at h
  | succ fuel ih =>
    intro P p h
    rw [subtree] at h
    split at h
    · simp at h
    · rcases List.mem_cons.1 h with h1 | h1
      · rw [h1]
      · rw [List.mem_flatMap] at h1
        obtain ⟨n, _, hn⟩ := h1
        exact (List.prefix_append P [n]).trans (ih _ _ hn)
    · rw [List.mem_singleton] at h
      rw [h]

theorem copySeq_subtree_keys (fs : FS) (S D r : CPath) (fuel : Nat) :
    ∀ e ∈ (copySeq fs S D (subtree fs fuel (S ++ r))).2, ∃ q, e.1 = D ++ r ++ q := by
  intro e he
  obtain ⟨p, hp, hk⟩ := copySeq_keys fs S D _ e he
  obtain ⟨q, hq⟩ := subtree_under fs fuel _ _ hp
  refine ⟨q, ?_⟩
  rw [hk, ← hq, List.append_assoc, List.drop_left, List.append_assoc]

/-! ## The tree walk -/

theorem walk_succ_not_dir (fn : Str → Option FileInfo → Option Error → FS → Res × FS)
    (fuel : Nat) (path : Str) (info : FileInfo) (fs : FS) (h : info.IsDir = false) :
    walk fn (fuel + 1) path info fs = fn path (some info) none fs := by
  rw [walk]; simp [h]

theorem walk_succ_dir (fn : Str → Option FileInfo → Option Error → FS → Res × FS)
    (fuel : Nat) (path : Str) (info : FileInfo) (fs fs1 : FS) (names : List Str)
    (h : info.IsDir = true) (hn : readDirNames path fs = .ok names)
    (hfn : fn path (some info) none fs = (.ok, fs1)) :
    walk fn (fuel + 1) path info fs = walkNames path fn (walk fn fuel) names fs1 := by
  rw [walk]; simp [h, hn, hfn]

theorem walkNames_cons (path : Str) (fn : Str → Option FileInfo → Option Error → FS → Res × FS)
    (rec : Str → FileInfo → FS → Res × FS) (name : Str) (names : List Str) (fs : FS)
    (fi : FileInfo) (h : Lstat (Join path name) fs = .ok fi) :
    walkNames path fn rec (name :: names) fs
      = match rec (Join path name) fi fs with
        | (.ok, fs1) => walkNames path fn rec names fs1
        | (r1, fs1) => (r1, fs1) := by
  rw [walkNames]; simp only [h]

section Copy

variable {fs0 : FS} {src dest : Str} {S D : CPath}

theorem FS.isDir_congr (fs fs1 : FS) (p : CPath) (h : fs1.get p = fs.get p) :
    fs1.isDir p = fs.isDir p := by
  unfold FS.isDir; rw [h]

theorem CopySetup.childNames_ext (hset : CopySetup fs0 src dest S D) {fs : FS}
    (hext : Extends fs0 fs D) (r : CPath) (node : Node)
    (hnode : fs0.get (S ++ r) = some node) :
    fs.childNames (S ++ r) = fs0.childNames (S ++ r) := by
  obtain ⟨added, rfl, hadded⟩ := hext
  apply childNames_append
  intro e he n hk
  have h1 : D <+: S ++ r ++ [n] := hk ▸ hadded e he
  rcases List.prefix_or_prefix_of_prefix h1 (List.prefix_append (S ++ r) [n]) with h | h
  · exact hset.not_under _ _ hnode h
  · exact hset.apart ((List.prefix_append S r).trans h)

theorem CopySetup.child_plain (hset : CopySetup fs0 src dest S D) (r : CPath) (n : Str)
    (hn : n ∈ fs0.childNames (S ++ r)) : PlainName n := by
  obtain ⟨e, he, hk⟩ := (mem_childNames fs0 _ n).1 hn
  have h := (hset.src_tree e he (by rw [hk, List.append_assoc]; exact List.prefix_append _ _)).1
  exact h n (by rw [hk]; simp)

theorem CopySetup.node_link (hset : CopySetup fs0 src dest S D) (r : CPath) (node : Node)
    (hnode : fs0.get (S ++ r) = some node) : node ≠ .symlink [] :=
  (hset.src_tree (S ++ r, node) (fs0.get_mem _ _ hnode) (List.prefix_append _ _)).2.2

theorem CopySetup.walkNames_copy (hset : CopySetup fs0 src dest S D) (fuel : Nat)
    (ih : WalkCopies fs0 src dest S D fuel)
    (r : CPath) (perm : Nat) (hP : fs0.get (S ++ r) = some (.dir perm))
    (hplain : ∀ n ∈ r, PlainName n)
    (hanc : ∀ k, 0 < k → k < (S ++ r).length → fs0.isDir ((S ++ r).take k) = true)
    (hdepth : ∀ e ∈ fs0.nodes, S ++ r <+: e.1 → e.1.length < (S ++ r).length + (fuel + 1)) :
    ∀ (names : List Str) (fs : FS), Extends fs0 fs D →
      (∀ n ∈ names, n ∈ fs0.childNames (S ++ r)) → names.Nodup →
      (∀ k, k ≤ r.length → fs.isDir (D ++ r.take k) = true) →
      (∀ n ∈ names, ∀ q, fs.get (D ++ (r ++ [n]) ++ q) = none) →
      walkNames (absPath (S ++ r)) (copyTreeFn src dest) (walk (copyTreeFn src dest) fuel) names fs
        = ((copySeq fs0 S D (names.flatMap (fun n => subtree fs0 fuel (S ++ (r ++ [n]))))).1,
           fs.append
            (copySeq fs0 S D (names.flatMap (fun n => subtree fs0 fuel (S ++ (r ++ [n]))))).2) := by
  intro names
  induction names with
  | nil =>
    intro fs _ _ _ _ _
    simp [walkNames, copySeq, FS.append_nil]
  | cons n names ihn =>
    intro fs hext hmem hnodup hdanc hfree
    have hn := hmem n (List.mem_cons_self _ _)
    obtain ⟨node', hnode'⟩ := get_of_mem_childNames fs0 (S ++ r) n hn
    rw [List.append_assoc] at hnode'
    have hpn : PlainName n := hset.child_plain r n hn
    have hplain' : ∀ x ∈ r ++ [n], PlainName x := by
      intro x hx
      rcases List.mem_append.1 hx with h | h
      · exact hplain x h
      · rw [List.mem_singleton] at h; exact h ▸ hpn
    have hanc' : ∀ k, 0 < k → k < (S ++ (r ++ [n])).length →
        fs0.isDir ((S ++ (r ++ [n])).take k) = true := by
      intro k h1 h2
      rw [← List.append_assoc] at h2 ⊢
      rw [List.take_append_eq_append_take]
      simp only [List.length_append, List.length_singleton] at h2
      by_cases hk : k < (S ++ r).length
      · have h0 : k - (S ++ r).length = 0 := by omega
        rw [h0]
        simpa using hanc k h1 hk
      · have hk' : k = (S ++ r).length := by simp only [List.length_append] at hk ⊢; omega
        rw [hk']
        simp only [List.take_length, Nat.sub_self, List.take_zero, List.append_nil]
        exact (fs0.isDir_iff _).2 ⟨perm, hP⟩
    have hjoin : Join (absPath (S ++ r)) n = absPath (S ++ (r ++ [n])) := by
      rw [Join_absPath_name (S ++ r) n (by simp [hset.src_ne])
        (fun x hx => by
          rcases List.mem_append.1 hx with h | h
          · exact hset.src_plain x h
          · exact hplain x h) hpn, List.append_assoc]
    have hres := hset.resolve_source hext (r ++ [n]) node' false hnode' hplain' hanc' (by simp)
    have hlstat := Lstat_of_resolve fs _ _ _ hres
    have hwalk := ih (r ++ [n]) fs ⟨basename (absPath (S ++ (r ++ [n]))), node'.mode⟩ node' hext
      hnode' rfl hplain' hanc'
      (fun k hk => by
        simp only [List.length_append, List.length_singleton] at hk
        rw [List.take_append_of_le_length (by omega)]
        exact hdanc k (by omega))
      (hfree n (List.mem_cons_self _ _))
      (fun e he hpre => by
        have := hdepth e he ((by rw [← List.append_assoc]; exact List.prefix_append _ _ :
          S ++ r <+: S ++ (r ++ [n])).trans hpre)
        simp only [List.length_append, List.length_singleton] at this ⊢
        omega)
    rw [walkNames_cons _ _ _ _ _ _ _ (by rw [hjoin]; exact hlstat), hjoin, hwalk,
      List.flatMap_cons, copySeq_append]
    rcases copySeq_res fs0 S D (subtree fs0 fuel (S ++ (r ++ [n]))) with hok | ⟨e, herr⟩
    · have hkeys := copySeq_subtree_keys fs0 S D (r ++ [n]) fuel
      simp only [hok, if_true]
      rw [ihn (fs.append _) (hext.append _ (fun e he => by
          obtain ⟨q, hq⟩ := hkeys e he
          rw [hq, List.append_assoc]
          exact List.prefix_append _ _))
        (fun x hx => hmem x (List.mem_cons_of_mem _ hx)) (List.nodup_cons.1 hnodup).2
        (fun k hk => by
          rw [FS.isDir_congr fs _ _ (FS.get_append_of_not_mem fs _ _ (fun e he heq => by
            obtain ⟨q, hq⟩ := hkeys e he
            have := congrArg List.length (hq.symm.trans heq)
            simp only [List.length_append, List.length_singleton, List.length_take] at this
            omega))]
          exact hdanc k hk)
        (fun x hx q => by
          rw [FS.get_append_of_not_mem fs _ _ (fun e he heq => by
            obtain ⟨q', hq'⟩ := hkeys e he
            have h1 := hq'.symm.trans heq
            simp only [List.append_assoc, List.append_cancel_left_eq, List.singleton_append,
              List.cons.injEq] at h1
            exact (List.nodup_cons.1 hnodup).1 (h1.1 ▸ hx))]
          exact hfree x (List.mem_cons_of_mem _ hx) q),
        FS.append_append]
    · simp only [herr]
      simp [Prod.ext_iff, herr]

theorem subtree_succ_dir (fs : FS) (fuel : Nat) (p : CPath) (perm : Nat)
    (h : fs.get p = some (.dir perm)) :
    subtree fs (fuel + 1) p
      = p :: (fs.childNames p).flatMap (fun n => subtree fs fuel (p ++ [n])) := by
  rw [subtree]; simp [h]

theorem subtree_succ_leaf (fs : FS) (fuel : Nat) (p : CPath) (node : Node)
    (h : fs.get p = some node) (hd : ∀ perm, node ≠ .dir perm) :
    subtree fs (fuel + 1) p = [p] := by
  rw [subtree]
  cases node with
  | dir perm => exact absurd rfl (hd perm)
  | file perm data => simp [h]
  | symlink t => simp [h]
  | special k perm => simp [h]

/-- The tree walk of `copyTree` copies as `copySeq` describes, at every
budget. -/
theorem CopySetup.walk_copy (hset : CopySetup fs0 src dest S D) :
    ∀ fuel, WalkCopies fs0 src dest S D fuel := by
  intro fuel
  induction fuel with
  | zero =>
    intro r fs info node _ hnode _ _ _ _ _ hdepth
    have := hdepth (S ++ r, node) (fs0.get_mem _ _ hnode) (List.prefix_refl _)
    simp at this
  | succ fuel ih =>
    intro r fs info node hext hnode hinfo hplain hanc hdanc hfree hdepth
    have hfn := hset.copyTreeFn_node hext r node info hnode hinfo hplain hanc
      (hset.node_link r node hnode) hdanc (by simpa using hfree [])
    cases node with
    | dir perm =>
      have hisdir : info.IsDir = true := by
        simp [FileInfo.IsDir, FileMode.IsDir, hinfo, Node.mode]
      have hres := hset.resolve_source hext r _ true hnode hplain hanc (by simp)
      have hnames := readDirNames_of_resolve fs _ _ perm hres
      rw [hset.childNames_ext hext r _ hnode] at hnames
      simp only at hfn
      rw [walk_succ_dir _ _ _ _ _ _ _ hisdir hnames hfn]
      rw [hset.walkNames_copy fuel ih r perm hnode hplain hanc hdepth (fs0.childNames (S ++ r))
        (fs.append (written fs0 (D ++ r) (.dir perm)))
        (hext.append _ (fun e he => by
          rw [written_keys fs0 _ _ e he]; exact List.prefix_append _ _))
        (fun n hn => hn) (nodup_childNames fs0 _)
        (fun k hk => by
          by_cases hk' : k < r.length
          · rw [FS.isDir_congr fs _ _ (FS.get_append_of_not_mem fs _ _ (fun e he heq => by
              rw [written_keys fs0 _ _ e he] at heq
              have := congrArg List.length heq
              simp only [List.length_append, List.length_take] at this
              omega))]
            exact hdanc k hk'
          · have hk2 : k = r.length := by omega
            rw [hk2, List.take_length, FS.isDir_iff]
            exact ⟨fs0.masked perm, by simp [written, FS.append, FS.get, findNode]⟩)
        (fun n _ q => by
          rw [FS.get_append_of_not_mem fs _ _ (fun e he heq => by
            rw [written_keys fs0 _ _ e he] at heq
            have := congrArg List.length heq
            simp only [List.length_append, List.length_singleton] at this
            omega)]
          have := hfree ([n] ++ q)
          simpa [List.append_assoc] using this)]
      rw [subtree_succ_dir fs0 fuel _ perm hnode, copySeq]
      simp only [hnode, List.append_assoc, List.drop_left, FS.append_append]
    | file perm data =>
      have hisdir : info.IsDir = false := by
        simp [FileInfo.IsDir, FileMode.IsDir, hinfo, Node.mode]
      simp only at hfn
      rw [walk_succ_not_dir _ _ _ _ _ hisdir, hfn,
        subtree_succ_leaf fs0 fuel _ _ hnode (by simp), copySeq]
      simp only [hnode, copySeq, List.nil_append, List.drop_left]
    | symlink t =>
      have hisdir : info.IsDir = false := by
        simp [FileInfo.IsDir, FileMode.IsDir, hinfo, Node.mode]
      simp only at hfn
      rw [walk_succ_not_dir _ _ _ _ _ hisdir, hfn,
        subtree_succ_leaf fs0 fuel _ _ hnode (by simp), copySeq]
      simp only [hnode, copySeq, List.nil_append, List.drop_left]
    | special k perm =>
      have hisdir : info.IsDir = false := by
        simp [FileInfo.IsDir, FileMode.IsDir, hinfo, Node.mode]
      simp only at hfn
      rw [walk_succ_not_dir _ _ _ _ _ hisdir, hfn,
        subtree_succ_leaf fs0 fuel _ _ hnode (by simp), copySeq]
      simp only [hnode, hinfo, Node.mode, FS.append_nil]

end Copy

/-! ## `copyTree` as a whole -/

section Copy

variable {fs0 : FS} {src dest : Str} {S D : CPath}

/-- In the setting of `CopySetup`, with a budget that exceeds the depth of the
source tree, `copyTree` returns what `copySeq` gives on the traversal of the
source tree and adds exactly its entries to the state. -/
theorem CopySetup.copyTree_eq (hset : CopySetup fs0 src dest S D) (fuel : Nat) (node : Node)
    (hnode : fs0.get S = some node)
    (hfuel : ∀ e ∈ fs0.nodes, S <+: e.1 → e.1.length < S.length + fuel) :
    copyTree fuel src dest fs0
      = ((copySeq fs0 S D (subtree fs0 fuel S)).1,
         fs0.append (copySeq fs0 S D (subtree fs0 fuel S)).2) := by
  have hanc : ∀ k, 0 < k → k < (S ++ []).length → fs0.isDir ((S ++ []).take k) = true := by
    intro k h1 h2
    rw [List.append_nil] at h2 ⊢
    exact hset.src_above k h2 h1
  have hres := hset.resolve_source (Extends.refl fs0 D) [] node false
    (by simpa using hnode) (by simp) hanc
    (by simp)
  have hlstat := Lstat_of_resolve fs0 _ _ _ hres
  have hw := hset.walk_copy fuel [] fs0 ⟨basename (absPath (S ++ [])), node.mode⟩ node
    (Extends.refl fs0 D) (by simpa using hnode) rfl (by simp) hanc (by simp)
    (fun q => by
      rw [FS.get_eq_none_iff]
      intro e he hk
      exact hset.dest_free e he (by rw [hk, List.append_nil]; exact List.prefix_append _ _))
    (fun e he hpre => by
      rw [List.append_nil] at hpre ⊢
      exact hfuel e he hpre)
  rw [List.append_nil] at hlstat hw
  unfold copyTree Walk
  rw [hset.src_eq, hlstat]
  simp only
  rw [← hset.src_eq] at hw ⊢
  exact hw

end Copy

theorem subtree_exists (fs : FS) (fuel : Nat) :
    ∀ (P p : CPath), p ∈ subtree fs fuel P → fs.get p ≠ none := by
  induction fuel with
  | zero => intro P p h; simp [subtree] at h
  | succ fuel ih =>
    intro P p h
    rw [subtree] at h
    split at h
    · simp at h
    · rename_i perm hP
      rcases List.mem_cons.1 h with h1 | h1
      · rw [h1, hP]; simp
      · rw [List.mem_flatMap] at h1
        obtain ⟨n, _, hn⟩ := h1
        exact ih _ _ hn
    · rename_i heq
      rw [List.mem_singleton] at h
      rw [h, heq]; simp

theorem subtree_nodup (fs : FS) (fuel : Nat) : ∀ P : CPath, (subtree fs fuel P).Nodup := by
  induction fuel with
  | zero => intro P; simp [subtree]
  | succ fuel ih =>
    intro P
    rw [subtree]
    split
    · exact List.nodup_nil
    · rw [List.nodup_cons]
      constructor
      · intro h
        rw [List.mem_flatMap] at h
        obtain ⟨n, _, hn⟩ := h
        have := (subtree_under fs fuel _ _ hn).length_le
        simp at this
      · rw [List.nodup_flatMap]
        refine ⟨fun n _ => ih _, ?_⟩
        refine (nodup_childNames fs P).imp ?_
        intro a b hab
        show List.Disjoint _ _
        intro x hxa hxb
        have h1 := subtree_under fs fuel _ _ hxa
        have h2 := subtree_under fs fuel _ _ hxb
        rcases List.prefix_or_prefix_of_prefix h1 h2 with h | h
        · have := h.eq_of_length (by simp)
          simp at this
          exact hab this
        · have := h.eq_of_length (by simp)
          simp at this
          exact hab this.symm
    · exact List.nodup_singleton _

theorem findNode_append_of_some (a b : List (CPath × Node)) (p : CPath) (n : Node)
    (h : findNode a p = some n) : findNode (a ++ b) p = some n := by
  induction a with
  | nil => simp [findNode] at h
  | cons e a ih =>
    obtain ⟨q, m⟩ := e
    by_cases hq : q = p
    · simp only [findNode, hq, if_true] at h
      simp only [List.cons_append, findNode, hq, if_true, h]
    · simp only [findNode, hq, if_false] at h
      simp only [List.cons_append, findNode, hq, if_false]
      exact ih h

theorem findNode_written (fs : FS) (key : CPath) (node : Node) (h : node.supported = true) :
    findNode (written fs key node) key = copyOf fs node := by
  cases node <;> simp [written, findNode, copyOf, Node.supported] at h ⊢

theorem drop_inj_under (S D p q : CPath) (hp : S <+: p) (hq : S <+: q)
    (h : D ++ p.drop S.length = D ++ q.drop S.length) : p = q := by
  obtain ⟨a, rfl⟩ := hp
  obtain ⟨b, rfl⟩ := hq
  simp only [List.drop_left, List.append_cancel_left_eq] at h
  rw [h]

theorem copySeq_ok (fs : FS) (S D : CPath) (ps : List CPath)
    (h : ∀ p ∈ ps, fs.supported p = true) : (copySeq fs S D ps).1 = .ok := by
  induction ps with
  | nil => rfl
  | cons p ps ih =>
    have hp := h p (List.mem_cons_self _ _)
    have ih' := ih (fun q hq => h q (List.mem_cons_of_mem _ hq))
    unfold FS.supported at hp
    rw [copySeq]
    split
    · exact ih'
    · rename_i k perm hget
      rw [hget] at hp
      simp [Node.supported] at hp
    · exact ih'

/-- After a copy of supported nodes, the entry found at the destination of a
node is its copy. -/
theorem copySeq_get (fs : FS) (S D : CPath) (ps : List CPath) (hS : ∀ p ∈ ps, S <+: p)
    (h : ∀ p ∈ ps, fs.supported p = true) :
    ∀ p ∈ ps, findNode (copySeq fs S D ps).2 (D ++ p.drop S.length)
      = (fs.get p).bind (copyOf fs) := by
  induction ps with
  | nil => intro p hp; simp at hp
  | cons p' ps ih =>
    intro p hp
    have hp' := h p' (List.mem_cons_self _ _)
    have ih' := ih (fun q hq => hS q (List.mem_cons_of_mem _ hq))
      (fun q hq => h q (List.mem_cons_of_mem _ hq))
    unfold FS.supported at hp'
    cases hget : fs.get p' with
    | none => rw [hget] at hp'; cases hp'
    | some node' =>
      rw [hget] at hp'
      simp only at hp'
      have hcs : (copySeq fs S D (p' :: ps)).2
          = (copySeq fs S D ps).2 ++ written fs (D ++ p'.drop S.length) node' := by
        rw [copySeq]
        cases node' with
        | special k perm => simp [Node.supported] at hp'
        | dir perm => simp [hget]
        | file perm data => simp [hget]
        | symlink t => simp [hget]
      rw [hcs]
      by_cases hmem : p ∈ ps
      · have h1 := ih' p hmem
        have hsup := h p (List.mem_cons_of_mem _ hmem)
        unfold FS.supported at hsup
        cases hgp : fs.get p with
        | none => rw [hgp] at hsup; cases hsup
        | some node =>
          rw [hgp] at h1 hsup
          have hc : ∃ c, copyOf fs node = some c := by
            cases node <;> simp [copyOf, Node.supported] at hsup ⊢
          obtain ⟨c, hc⟩ := hc
          simp only [Option.some_bind, hc] at h1 ⊢
          exact findNode_append_of_some _ _ _ _ h1
      · have hpp : p = p' := by
          rcases List.mem_cons.1 hp with h1 | h1
          · exact h1
          · exact absurd h1 hmem
        subst hpp
        rw [findNode_append_of_not_mem, findNode_written fs _ _ hp', hget]
        · rfl
        · intro e he heq
          obtain ⟨q, hq, hk⟩ := copySeq_keys fs S D ps e he
          have := drop_inj_under S D q p (hS q (List.mem_cons_of_mem _ hq))
            (hS p (List.mem_cons_self _ _)) (hk.symm.trans heq)
          exact hmem (this ▸ hq)

/-! ## A node that is not supported -/

/-- C6, as stated, fails: the tree at "/home/user/build" of the example state
contains a named pipe, but with the destination "/tmp/rootfs", which exists,
`copyTree` returns the error of `Mkdir` at the root of the tree and not
`UnsupportedNodeType`. -/
theorem copyTree_unsupported_not_reached :
    ¬ (∀ (fuel : Nat) (src dest : Str) (fs : FS) (S bad : CPath) (k : Special) (perm : Nat),
        src = absPath S → bad ∈ subtree fs fuel S → fs.get bad = some (.special k perm) →
        ∃ path mode fs', copyTree fuel src dest fs
          = (.err (.UnsupportedNodeType path mode), fs')) := by
  intro h
  obtain ⟨path, mode, fs', heq⟩ := h 8 "/home/user/build".toList "/tmp/rootfs".toList exampleFS
    ["home".toList, "user".toList, "build".toList]
    ["home".toList, "user".toList, "build".toList, "pipe".toList] .fifo 0o644
    (by decide) (by decide) (by decide)
  have hc : copyTree 8 "/home/user/build".toList "/tmp/rootfs".toList exampleFS
      = (.err (.pathError .mkdir "/tmp/rootfs".toList .eexist), exampleFS) := by decide
  rw [hc] at heq
  simp at heq

/-- C6 (amended): let the source and the destination be cleaned absolute paths,
the destination not existing yet, with existing parent directories, and not
inside the source tree, and let the recursion budget exceed the depth of the
source tree. When the traversal of the source tree, in the order of
`filepath.Walk`, reaches a node `bad` that is neither directory, regular file
nor symbolic link after supported nodes `pre` only, then `copyTree` returns
`UnsupportedNodeType` for `bad`; every node of `pre` has its copy at the
destination when `copyTree` returns, `bad` and the nodes after it have none, and
nothing outside the destination has changed. -/
theorem copyTree_unsupported_node (fs : FS) (src dest : Str) (S D : CPath) (fuel : Nat)
    (pre post : List CPath) (bad : CPath) (k : Special) (perm : Nat)
    (hset : CopySetup fs src dest S D)
    (hfuel : ∀ e ∈ fs.nodes, S <+: e.1 → e.1.length < S.length + fuel)
    (htrav : subtree fs fuel S = pre ++ bad :: post)
    (hpre : ∀ p ∈ pre, fs.supported p = true)
    (hbad : fs.get bad = some (.special k perm)) :
    ∃ fs', copyTree fuel src dest fs
        = (.err (.UnsupportedNodeType (absPath bad) ⟨.other k, perm⟩), fs')
      ∧ (∀ p ∈ pre, fs'.get (D ++ p.drop S.length) = (fs.get p).bind (copyOf fs))
      ∧ (∀ p ∈ bad :: post, fs'.get (D ++ p.drop S.length) = none)
      ∧ (∀ p, ¬ D <+: p → fs'.get p = fs.get p) := by
  have hSmem : S ∈ subtree fs fuel S := by
    cases fuel with
    | zero => simp [subtree] at htrav
    | succ fuel =>
      rw [subtree]
      split
      · rename_i hnone
        rw [subtree, hnone] at htrav
        simp at htrav
      · exact List.mem_cons_self _ _
      · exact List.mem_singleton_self _
  obtain ⟨node, hnode⟩ := Option.ne_none_iff_exists'.1 (subtree_exists fs fuel S S hSmem)
  have hpfx : ∀ p ∈ pre, S <+: p := fun p hp =>
    subtree_under fs fuel S p (by rw [htrav]; exact List.mem_append_left _ hp)
  have hseq : copySeq fs S D (subtree fs fuel S)
      = (.err (.UnsupportedNodeType (absPath bad) ⟨.other k, perm⟩), (copySeq fs S D pre).2) := by
    rw [htrav, copySeq_append, copySeq_ok fs S D pre hpre, if_pos rfl, copySeq]
    simp [hbad]
  have hkeys := copySeq_keys fs S D pre
  have hnodup := subtree_nodup fs fuel S
  rw [htrav] at hnodup
  refine ⟨fs.append (copySeq fs S D pre).2, ?_, ?_, ?_, ?_⟩
  · rw [hset.copyTree_eq fuel node hnode hfuel, hseq]
  · intro p hp
    have h1 := copySeq_get fs S D pre hpfx hpre p hp
    have hsup := hpre p hp
    unfold FS.supported at hsup
    cases hgp : fs.get p with
    | none => rw [hgp] at hsup; cases hsup
    | some n =>
      rw [hgp] at h1 hsup
      have hc : ∃ c, copyOf fs n = some c := by
        cases n <;> simp [copyOf, Node.supported] at hsup ⊢
      obtain ⟨c, hc⟩ := hc
      simp only [Option.some_bind, hc] at h1 ⊢
      exact findNode_append_of_some _ _ _ _ h1
  · intro p hp
    have hpS : S <+: p :=
      subtree_under fs fuel S p (by rw [htrav]; exact List.mem_append_right _ hp)
    rw [FS.get_append_of_not_mem, FS.get_eq_none_iff]
    · intro e he hk
      exact hset.dest_free e he (hk ▸ List.prefix_append _ _)
    · intro e he heq
      obtain ⟨q, hq, hk⟩ := hkeys e he
      have := drop_inj_under S D q p (hpfx q hq) hpS (hk.symm.trans heq)
      exact (List.nodup_append.1 hnodup).2.2 (this ▸ hq) hp
  · intro p hp
    exact FS.get_append_not_under fs _ D p (fun e he => by
      obtain ⟨q, _, hk⟩ := hkeys e he
      rw [hk]; exact List.prefix_append _ _) hp

/-- Copying "/home/user/build" of the example state to "/tmp/rootfs/build"
stops at the named pipe `pipe`, after the directory `app` and its content have
been copied. -/
theorem copyTree_unsupported_node_witness :
    ∃ fs', copyTree 8 "/home/user/build".toList "/tmp/rootfs/build".toList exampleFS
        = (.err (.UnsupportedNodeType
            (absPath ["home".toList, "user".toList, "build".toList, "pipe".toList])
            ⟨.other .fifo, 0o644⟩), fs')
      ∧ (∀ p ∈ [["home".toList, "user".toList, "build".toList],
            ["home".toList, "user".toList, "build".toList, "app".toList],
            ["home".toList, "user".toList, "build".toList, "app".toList, "bin".toList],
            ["home".toList, "user".toList, "build".toList, "app".toList, "bin".toList,
              "run".toList],
            ["home".toList, "user".toList, "build".toList, "app".toList, "latest".toList]],
          fs'.get (["tmp".toList, "rootfs".toList, "build".toList]
              ++ p.drop ["home".toList, "user".toList, "build".toList].length)
            = (exampleFS.get p).bind (copyOf exampleFS))
      ∧ (∀ p ∈ ["home".toList, "user".toList, "build".toList, "pipe".toList] :: [],
          fs'.get (["tmp".toList, "rootfs".toList, "build".toList]
              ++ p.drop ["home".toList, "user".toList, "build".toList].length) = none)
      ∧ (∀ p, ¬ ["tmp".toList, "rootfs".toList, "build".toList] <+: p →
          fs'.get p = exampleFS.get p) :=
  copyTree_unsupported_node exampleFS "/home/user/build".toList "/tmp/rootfs/build".toList
    ["home".toList, "user".toList, "build".toList]
    ["tmp".toList, "rootfs".toList, "build".toList] 8
    [["home".toList, "user".toList, "build".toList],
      ["home".toList, "user".toList, "build".toList, "app".toList],
      ["home".toList, "user".toList, "build".toList, "app".toList, "bin".toList],
      ["home".toList, "user".toList, "build".toList, "app".toList, "bin".toList, "run".toList],
      ["home".toList, "user".toList, "build".toList, "app".toList, "latest".toList]]
    [] ["home".toList, "user".toList, "build".toList, "pipe".toList] .fifo 0o644
    ⟨by decide, by decide, by decide, by decide, by decide, by decide, by decide, by decide,
      by decide, by decide, by decide⟩
    (by decide) (by decide) (by decide) (by decide)

/-! ## The parent of a clean absolute path -/

theorem dropWhile_append_of_all (p : Char → Bool) (a b : Str) (ha : ∀ x ∈ a, p x = true) :
    (a ++ b).dropWhile p = b.dropWhile p := by
  induction a with
  | nil => rfl
  | cons x a ih =>
    have hx := ha x (List.mem_cons_self _ _)
    rw [List.cons_append, List.dropWhile_cons, if_pos hx]
    exact ih (fun y hy => ha y (List.mem_cons_of_mem _ hy))

theorem reverse_absPath_snoc (q : CPath) (n : Str) :
    (absPath (q ++ [n])).reverse = n.reverse ++ '/' :: (absPath q).reverse := by
  rw [absPath_append]
  simp [absPath, List.flatMap_cons]

theorem dirPrefix_absPath (q : CPath) (n : Str) (hn : '/' ∉ n) :
    dirPrefix (absPath (q ++ [n])) = absPath q ++ ['/'] := by
  unfold dirPrefix
  rw [reverse_absPath_snoc, dropWhile_append_of_all _ _ _ (fun x hx => by
    have : x ≠ '/' := fun h => hn (h ▸ List.mem_reverse.1 hx)
    simpa using this)]
  simp [List.dropWhile_cons]

theorem Dir_absPath (q : CPath) (n : Str) (hq : q ≠ []) (hplain : ∀ x ∈ q, PlainName x)
    (hn : PlainName n) : Dir (absPath (q ++ [n])) = absPath q := by
  have hsplit : splitOn '/' (absPath q ++ '/' :: []) = ([] :: q) ++ [[]] := by
    rw [splitOn_append_sep, splitOn_absPath q (plain_no_slash hplain)]
    rfl
  have hfilter : (([] : Str) :: q ++ [[]]).filter (fun c => c ≠ []) = q := by
    rw [List.filter_append, filter_nil_cons, filter_ne_nil_plain q hplain]
    simp
  unfold Dir
  rw [dirPrefix_absPath q n hn.2.2.2, Clean_of_parts _ (IsAbs_absPath_append q hq _)]
  · rw [hsplit, hfilter]
  · rw [hsplit]
    intro c hc
    simp only [List.cons_append, List.mem_cons, List.mem_append, List.not_mem_nil,
      or_false] at hc
    rcases hc with h | h | h
    · exact Or.inl h
    · exact Or.inr (hplain c h)
    · exact Or.inl h
  · rw [hsplit, hfilter]; exact hq

theorem Dir_absPath_single (n : Str) (hn : PlainName n) : Dir (absPath [n]) = ['/'] := by
  have h := dirPrefix_absPath [] n hn.2.2.2
  rw [List.nil_append] at h
  unfold Dir
  rw [h]
  decide

/-- The directory that `PrepareAssets` creates for a clean destination `a`
below a clean root filesystem path `r`. -/
theorem Join_Dir_absPath (r a : CPath) (n : Str) (hr : r ≠ [])
    (hrp : ∀ x ∈ r, PlainName x) (hap : ∀ x ∈ a, PlainName x) (hn : PlainName n) :
    Join (absPath r) (Dir (absPath (a ++ [n]))) = absPath (r ++ a) := by
  by_cases ha : a = []
  · subst ha
    rw [List.nil_append, Dir_absPath_single n hn, List.append_nil]
    have hsplit : splitOn '/' (absPath r ++ '/' :: ['/']) = ([] :: r) ++ [[], []] := by
      rw [splitOn_append_sep, splitOn_absPath r (plain_no_slash hrp)]
      rfl
    have hfilter : (([] : Str) :: r ++ [[], []]).filter (fun c => c ≠ []) = r := by
      rw [List.filter_append, filter_nil_cons, filter_ne_nil_plain r hrp]
      simp
    unfold Join
    rw [if_pos (absPath_ne_nil r hr), Clean_of_parts _ (IsAbs_absPath_append r hr _)]
    · rw [hsplit, hfilter]
    · rw [hsplit]
      intro c hc
      simp only [List.cons_append, List.mem_cons, List.mem_append, List.not_mem_nil,
        or_false] at hc
      rcases hc with h | h | h | h
      · exact Or.inl h
      · exact Or.inr (hrp c h)
      · exact Or.inl h
      · exact Or.inl h
    · rw [hsplit, hfilter]; exact hr
  · rw [Dir_absPath a n ha hap hn]
    exact Join_absPath r a hr hrp hap

theorem parentEnd_absPath (q : CPath) (n : Str) (hn : PlainName n) :
    parentEnd (absPath (q ++ [n])) = (absPath q).length + 1 := by
  unfold parentEnd
  rw [reverse_absPath_snoc]
  have hns : ∀ x ∈ n.reverse, x ≠ '/' := fun x hx h => hn.2.2.2 (h ▸ List.mem_reverse.1 hx)
  cases hrev : n.reverse with
  | nil => exact absurd (List.reverse_eq_nil_iff.1 hrev) hn.1
  | cons c rest =>
    rw [hrev] at hns
    have hc : c ≠ '/' := hns c (List.mem_cons_self _ _)
    rw [List.cons_append, List.dropWhile_cons, if_neg (by simpa using hc)]
    rw [← List.cons_append, dropWhile_append_of_all _ _ _ (fun x hx => by
      simpa using hns x hx)]
    simp [List.dropWhile_cons]

theorem take_absPath (q : CPath) (n : Str) :
    (absPath (q ++ [n])).take (absPath q).length = absPath q := by
  rw [absPath_append, List.take_left]

theorem length_le_absPath (q : CPath) : q.length ≤ (absPath q).length := by
  induction q with
  | nil => simp
  | cons n q ih =>
    rw [absPath_cons]
    simp only [List.length_cons, List.length_append]
    omega

/-! ## `MkdirAll` on a clean absolute path -/

theorem lookupComps_missing (fs : FS) (follow : Bool) (comps : List Str) :
    ∀ cur : CPath, comps ≠ [] → (∀ c ∈ comps, PlainName c) →
      (∀ k, k ≤ comps.length → 0 < k →
        fs.get (cur ++ comps.take k) = none ∨ fs.isDir (cur ++ comps.take k) = true) →
      fs.get (cur ++ comps) = none →
      (lookupComps fs follow cur comps = .done (.error .enoent)
        ∨ lookupComps fs follow cur comps = .done (.ok (cur ++ comps, none))) := by
  induction comps with
  | nil => intro cur h; exact absurd rfl h
  | cons c rest ih =>
    intro cur _ hplain hpre hnone
    obtain ⟨h1, h2, h3, _⟩ := hplain c (List.mem_cons_self _ _)
    have hk1 := hpre 1 (by simp) (by omega)
    simp only [List.take_succ_cons, List.take_zero] at hk1
    rcases hk1 with hget | hdir
    · rw [lookupComps]
      by_cases hrest : rest = []
      · right
        subst hrest
        simp [h1, h2, h3, hget]
      · left
        simp [h1, h2, h3, hget, hrest]
    · rw [FS.isDir_iff] at hdir
      obtain ⟨perm, hget⟩ := hdir
      have hrest : rest ≠ [] := by
        intro h
        subst h
        rw [hget] at hnone
        cases hnone
      rw [lookupComps_cons_dir fs follow cur c rest perm (hplain c (List.mem_cons_self _ _)) hget]
      have := ih (cur ++ [c]) hrest (fun x hx => hplain x (List.mem_cons_of_mem _ hx))
        (fun k hk1 hk2 => by
          have := hpre (k + 1) (by simp; omega) (by omega)
          simpa using this)
        (by simpa using hnone)
      simpa using this

theorem Stat_absPath_missing (fs : FS) (p : CPath) (hp : p ≠ []) (hplain : ∀ n ∈ p, PlainName n)
    (hpre : ∀ k, k ≤ p.length → 0 < k →
      fs.get (p.take k) = none ∨ fs.isDir (p.take k) = true)
    (hnone : fs.get p = none) : ∃ e, Stat (absPath p) fs = .error e := by
  have hl := lookupComps_missing fs true p [] hp hplain (by simpa using hpre)
    (by simpa using hnone)
  unfold Stat FS.resolve
  rw [if_neg (absPath_ne_nil p hp), IsAbs_absPath p hp, splitOn_absPath p (plain_no_slash hplain)]
  simp only [if_true, resolveFrom, lookupComps, true_or]
  rcases hl with h | h
  · rw [h]; exact ⟨_, rfl⟩
  · rw [h]; exact ⟨_, rfl⟩

theorem MkdirAllAux_of_stat_dir (fuel : Nat) (path : Str) (perm : Nat) (fs : FS) (dir : FileInfo)
    (hs : Stat path fs = .ok dir) (hd : dir.IsDir = true) :
    MkdirAllAux (fuel + 1) path perm fs = (.ok, fs) := by
  rw [MkdirAllAux]; simp [hs, hd]

theorem MkdirAllAux_of_parent (fuel : Nat) (path : Str) (perm : Nat) (fs fs1 fs2 : FS)
    (e : Error) (hs : Stat path fs = .error e)
    (hparent : (if parentEnd path > 1
        then MkdirAllAux fuel (path.take (parentEnd path - 1)) perm fs else (.ok, fs))
      = (.ok, fs1))
    (hmk : Mkdir path perm fs1 = (.ok, fs2)) :
    MkdirAllAux (fuel + 1) path perm fs = (.ok, fs2) := by
  rw [MkdirAllAux]; simp only [hs, hparent, hmk]

/-- `MkdirAll` on the clean absolute path of `p`, whose existing parents are
directories: it succeeds, adds only directories at parents of `p` (or `p`) that
were missing, and afterwards `p` and all its parents are directories. -/
theorem MkdirAllAux_absPath (fs : FS) (perm : Nat) :
    ∀ (fuel : Nat) (p : CPath), p ≠ [] → p.length ≤ fuel → (∀ n ∈ p, PlainName n) →
      (∀ k, k ≤ p.length → 0 < k →
        fs.get (p.take k) = none ∨ fs.isDir (p.take k) = true) →
      (∀ k, k ≤ p.length → 0 < k → fs.get (p.take k) ≠ none →
        ∀ j, j < k → 0 < j → fs.isDir (p.take j) = true) →
      ∃ added, MkdirAllAux fuel (absPath p) perm fs = (.ok, fs.append added)
        ∧ (∀ e ∈ added, e.1 <+: p ∧ e.1 ≠ [] ∧ fs.get e.1 = none)
        ∧ (∀ k, k ≤ p.length → 0 < k → (fs.append added).isDir (p.take k) = true) := by
  intro fuel
  induction fuel with
  | zero =>
    intro p hp hlen
    exact absurd (List.length_eq_zero.1 (Nat.le_zero.1 hlen)) hp
  | succ fuel ih =>
    intro p hp hlen hplain hpre hclosed
    have hfull := hpre p.length (le_refl _) (List.length_pos.2 hp)
    rw [List.take_length] at hfull
    rcases hfull with hnone | hdir
    · obtain ⟨e, hstat⟩ := Stat_absPath_missing fs p hp hplain hpre hnone
      obtain ⟨p', n, rfl⟩ : ∃ p' n, p = p' ++ [n] :=
        ⟨p.dropLast, p.getLast hp, (List.dropLast_append_getLast hp).symm⟩
      have hn : PlainName n := hplain n (by simp)
      have hplain' : ∀ x ∈ p', PlainName x := fun x hx => hplain x (by simp [hx])
      have hparent : ∃ added1,
          (if parentEnd (absPath (p' ++ [n])) > 1
            then MkdirAllAux fuel
              ((absPath (p' ++ [n])).take (parentEnd (absPath (p' ++ [n])) - 1)) perm fs
            else (.ok, fs)) = (.ok, fs.append added1)
          ∧ (∀ e ∈ added1, e.1 <+: p' ∧ e.1 ≠ [] ∧ fs.get e.1 = none)
          ∧ (∀ k, k ≤ p'.length → 0 < k → (fs.append added1).isDir (p'.take k) = true) := by
        rw [parentEnd_absPath p' n hn]
        by_cases hp' : p' = []
        · subst hp'
          refine ⟨[], ?_, by simp, ?_⟩
          · simp [absPath_nil, FS.append_nil]
          · intro k hk1 hk2
            simp at hk1
            omega
        · have hpos : (absPath p').length + 1 > 1 := by
            have := List.length_pos.2 (absPath_ne_nil p' hp')
            omega
          rw [if_pos hpos, Nat.add_sub_cancel, take_absPath]
          exact ih p' hp' (by simp at hlen; omega) hplain'
            (fun k hk1 hk2 => by
              have := hpre k (by simp; omega) hk2
              rwa [List.take_append_of_le_length hk1] at this)
            (fun k hk1 hk2 hex j hj1 hj2 => by
              have := hclosed k (by simp; omega) hk2
                (by rwa [List.take_append_of_le_length hk1]) j hj1 hj2
              rwa [List.take_append_of_le_length (by omega)] at this)
      obtain ⟨added1, hpar, hkeys1, hdirs1⟩ := hparent
      have hfree1 : (fs.append added1).get (p' ++ [n]) = none := by
        rw [FS.get_append_of_not_mem, hnone]
        intro e he heq
        have := (hkeys1 e he).1.length_le
        rw [heq] at this
        simp at this
      have hres := resolve_absPath (fs.append added1) false (p' ++ [n]) hp hplain
        (fun k hk1 hk2 => by
          simp only [List.length_append, List.length_singleton] at hk2
          rw [List.take_append_of_le_length (by omega)]
          exact hdirs1 k (by omega) hk1)
        (by simp)
      rw [hfree1] at hres
      refine ⟨(p' ++ [n], .dir ((fs.append added1).masked perm)) :: added1, ?_, ?_, ?_⟩
      · rw [MkdirAllAux_of_parent fuel _ perm fs _ _ e hstat hpar
          (Mkdir_of_resolve _ _ perm _ hres)]
        rfl
      · intro e he
        rcases List.mem_cons.1 he with h | h
        · rw [h]
          exact ⟨List.prefix_refl _, by simp, hnone⟩
        · obtain ⟨h1, h2, h3⟩ := hkeys1 e h
          exact ⟨h1.trans (List.prefix_append _ _), h2, h3⟩
      · intro k hk1 hk2
        simp only [List.length_append, List.length_singleton] at hk1
        by_cases hk : k ≤ p'.length
        · rw [List.take_append_of_le_length hk]
          have h1 := hdirs1 k hk hk2
          rw [FS.isDir_iff] at h1 ⊢
          obtain ⟨pm, hpm⟩ := h1
          refine ⟨pm, ?_⟩
          have hne : p' ++ [n] ≠ p'.take k := by
            intro h
            have := congrArg List.length h
            simp only [List.length_append, List.length_singleton, List.length_take] at this
            omega
          show findNode ((p' ++ [n], _) :: (added1 ++ fs.nodes)) _ = _
          rw [findNode, if_neg hne]
          exact hpm
        · have hk' : k = (p' ++ [n]).length := by simp; omega
          rw [hk', List.take_length, FS.isDir_iff]
          exact ⟨(fs.append added1).masked perm, by simp [FS.append, FS.get, findNode]⟩
    · have hanc : ∀ k, 0 < k → k < p.length → fs.isDir (p.take k) = true := by
        intro k hk1 hk2
        have hex : fs.get (p.take p.length) ≠ none := by
          rw [List.take_length]
          obtain ⟨pm, hpm⟩ := (fs.isDir_iff p).1 hdir
          rw [hpm]; simp
        exact hclosed p.length (le_refl _) (by omega) hex k hk2 hk1
      obtain ⟨pm, hpm⟩ := (fs.isDir_iff p).1 hdir
      have hres := resolve_absPath fs true p hp hplain hanc (by rw [hpm]; simp)
      rw [hpm] at hres
      refine ⟨[], ?_, by simp, ?_⟩
      · rw [MkdirAllAux_of_stat_dir fuel _ perm fs _ (Stat_of_resolve fs _ _ _ hres)
          (by simp [FileInfo.IsDir, FileMode.IsDir, Node.mode])]
        rfl
      · intro k hk1 hk2
        rw [FS.append_nil]
        by_cases hk : k < p.length
        · exact hanc k hk2 hk
        · have hk' : k = p.length := by omega
          rw [hk', List.take_length]
          exact hdir

/-! ## Well-formed states -/

theorem FS.get_ne_none_iff (fs : FS) (p : CPath) :
    fs.get p ≠ none ↔ ∃ e ∈ fs.nodes, e.1 = p := by
  rw [Ne, FS.get_eq_none_iff]
  push_neg
  rfl

theorem FS.isDir_ne_none (fs : FS) (p : CPath) (h : fs.isDir p = true) : fs.get p ≠ none := by
  obtain ⟨perm, hp⟩ := (fs.isDir_iff p).1 h
  rw [hp]; simp

theorem FS.WF.ancestor {fs : FS} (hwf : fs.WF) (q : CPath) :
    ∀ p : CPath, q ≠ [] → fs.get (p ++ q) ≠ none → fs.isDir p = true := by
  induction q using List.reverseRecOn with
  | nil => intro p h; exact absurd rfl h
  | append_singleton q0 m ih =>
    intro p _ hex
    obtain ⟨e, he, hk⟩ := (fs.get_ne_none_iff _).1 hex
    have hpar := (hwf.2 e he).2.1 (by rw [hk]; simp)
    rw [hk, ← List.append_assoc, List.dropLast_concat] at hpar
    by_cases hq0 : q0 = []
    · subst hq0
      simpa using hpar
    · exact ih p hq0 (fs.isDir_ne_none _ hpar)

theorem FS.WF.take_isDir {fs : FS} (hwf : fs.WF) (p : CPath) (hp : fs.get p ≠ none) (k : Nat)
    (hk : k < p.length) : fs.isDir (p.take k) = true := by
  apply hwf.ancestor (p.drop k) (p.take k)
  · intro h
    have := congrArg List.length h
    simp at this
    omega
  · rwa [List.take_append_drop]

theorem FS.WF.free_below {fs : FS} (hwf : fs.WF) (d : CPath) (hd : fs.get d = none) :
    ∀ e ∈ fs.nodes, ¬ d <+: e.1 := by
  intro e he hpre
  obtain ⟨q, hq⟩ := hpre
  have hex : fs.get (d ++ q) ≠ none := (fs.get_ne_none_iff _).2 ⟨e, he, hq.symm⟩
  by_cases hq0 : q = []
  · subst hq0
    rw [List.append_nil] at hex
    exact hex hd
  · exact fs.isDir_ne_none d (hwf.ancestor q d hq0 hex) hd

/-! ## The traversal lists every node of the source tree -/

section Copy

variable {fs0 : FS} {src dest : Str} {S D : CPath}

theorem CopySetup.src_chain (hset : CopySetup fs0 src dest S D) (q : CPath) :
    ∀ P : CPath, S <+: P → q ≠ [] → fs0.get (P ++ q) ≠ none → fs0.isDir P = true := by
  induction q using List.reverseRecOn with
  | nil => intro P _ h; exact absurd rfl h
  | append_singleton q0 m ih =>
    intro P hSP _ hex
    obtain ⟨e, he, hk⟩ := (fs0.get_ne_none_iff _).1 hex
    have hSe : S <+: e.1 := by
      rw [hk]; exact hSP.trans (List.prefix_append _ _)
    have hne : e.1 ≠ S := by
      intro h
      have h1 := congrArg List.length (hk.symm.trans h)
      have h2 := hSP.length_le
      simp only [List.length_append, List.length_singleton] at h1
      omega
    have hpar := (hset.src_tree e he hSe).2.1 hne
    rw [hk, ← List.append_assoc, List.dropLast_concat] at hpar
    by_cases hq0 : q0 = []
    · subst hq0
      simpa using hpar
    · exact ih P hSP hq0 (fs0.isDir_ne_none _ hpar)

theorem CopySetup.subtree_complete (hset : CopySetup fs0 src dest S D) :
    ∀ (fuel : Nat) (P q : CPath), S <+: P → fs0.get (P ++ q) ≠ none →
      (∀ e ∈ fs0.nodes, P <+: e.1 → e.1.length < P.length + fuel) →
      P ++ q ∈ subtree fs0 fuel P := by
  intro fuel
  induction fuel with
  | zero =>
    intro P q _ hex hdepth
    obtain ⟨e, he, hk⟩ := (fs0.get_ne_none_iff _).1 hex
    have := hdepth e he (by rw [hk]; exact List.prefix_append _ _)
    rw [hk] at this
    simp at this
  | succ fuel ih =>
    intro P q hSP hex hdepth
    cases q with
    | nil =>
      rw [List.append_nil] at hex ⊢
      rw [subtree]
      split
      · rename_i hnone; exact absurd hnone hex
      · exact List.mem_cons_self _ _
      · exact List.mem_singleton_self _
    | cons n q' =>
      have hdir := hset.src_chain (n :: q') P hSP (by simp) hex
      obtain ⟨perm, hP⟩ := (fs0.isDir_iff P).1 hdir
      have hchild : fs0.get (P ++ [n]) ≠ none := by
        by_cases hq' : q' = []
        · subst hq'; exact hex
        · apply fs0.isDir_ne_none
          apply hset.src_chain q' (P ++ [n]) (hSP.trans (List.prefix_append _ _)) hq'
          simpa using hex
      have hn : n ∈ fs0.childNames P :=
        (mem_childNames fs0 P n).2 ((fs0.get_ne_none_iff _).1 hchild)
      rw [subtree_succ_dir fs0 fuel P perm hP]
      apply List.mem_cons_of_mem
      rw [List.mem_flatMap]
      refine ⟨n, hn, ?_⟩
      have := ih (P ++ [n]) q' (hSP.trans (List.prefix_append _ _)) (by simpa using hex)
        (fun e he hpre => by
          have := hdepth e he ((List.prefix_append _ _).trans hpre)
          simp only [List.length_append, List.length_singleton]
          omega)
      simpa using this

end Copy

/-! ## `PrepareAssets` on one well-formed asset -/

theorem FS.get_append_of_exists (fs : FS) (added : List (CPath × Node)) (p : CPath)
    (hadded : ∀ e ∈ added, fs.get e.1 = none) (hp : fs.get p ≠ none) :
    (fs.append added).get p = fs.get p := by
  apply FS.get_append_of_not_mem
  intro e he heq
  exact hp (heq ▸ hadded e he)

theorem FS.isDir_append_of_isDir (fs : FS) (added : List (CPath × Node)) (p : CPath)
    (hadded : ∀ e ∈ added, fs.get e.1 = none) (hp : fs.isDir p = true) :
    (fs.append added).isDir p = true := by
  rw [FS.isDir_congr fs _ p (fs.get_append_of_exists added p hadded (fs.isDir_ne_none p hp))]
  exact hp

theorem copyOf_append (fs : FS) (added : List (CPath × Node)) (node : Node) :
    copyOf (fs.append added) node = copyOf fs node := by
  cases node <;> rfl

theorem validateAsset_absPath (fs : FS) (a s : CPath) (ha : a ≠ []) (hs : s ≠ [])
    (hplain : ∀ n ∈ s, PlainName n) (hwf : fs.WF) (node : Node) (hnode : fs.get s = some node)
    (hkind : node.mode.IsDir = true ∨ node.mode.IsRegular = true) :
    validateAsset (absPath a) (absPath s) fs = none := by
  have hres := resolve_absPath fs true s hs hplain
    (fun k _ hk => hwf.take_isDir s (by rw [hnode]; simp) k hk)
    (fun _ t => by
      rw [hnode]
      intro h
      simp only [Option.some.injEq] at h
      subst h
      simp [Node.mode, FileMode.IsDir, FileMode.IsRegular] at hkind)
  rw [hnode] at hres
  have hstat := Stat_of_resolve fs _ _ _ hres
  rw [validateAsset_eq_none_iff]
  exact ⟨IsAbs_absPath a ha, IsAbs_absPath s hs, _, hstat, hkind⟩

theorem CopySetup.of_mkdirAll (fs : FS) (S P : CPath) (n : Str) (added : List (CPath × Node))
    (hS : S ≠ []) (hSp : ∀ x ∈ S, PlainName x) (hDp : ∀ x ∈ P ++ [n], PlainName x)
    (hwf : fs.WF) (hSex : fs.get S ≠ none) (hfree : fs.get (P ++ [n]) = none)
    (hapart : ¬ S <+: P ++ [n])
    (hkeys : ∀ e ∈ added, e.1 <+: P ∧ e.1 ≠ [] ∧ fs.get e.1 = none)
    (hdirs : ∀ k, k ≤ P.length → 0 < k → (fs.append added).isDir (P.take k) = true) :
    CopySetup (fs.append added) (absPath S) (absPath (P ++ [n])) S (P ++ [n]) where
  src_eq := rfl
  dest_eq := rfl
  src_ne := hS
  dest_ne := by simp
  src_plain := hSp
  dest_plain := hDp
  src_above := fun k hk _ =>
    fs.isDir_append_of_isDir added _ (fun e he => (hkeys e he).2.2) (hwf.take_isDir S hSex k hk)
  src_tree := by
    intro e he hSe
    rcases List.mem_append.1 he with h | h
    · exact absurd (hSe.trans ((hkeys e h).1.trans (List.prefix_append _ _))) hapart
    · obtain ⟨h1, h2, h3⟩ := hwf.2 e h
      exact ⟨h1, fun _ => fs.isDir_append_of_isDir added _ (fun e he => (hkeys e he).2.2)
        (h2 (fun h0 => hS (List.prefix_nil.1 (h0 ▸ hSe)))), h3⟩
  dest_above := by
    intro k hk hk0
    simp only [List.length_append, List.length_singleton] at hk
    rw [List.take_append_of_le_length (by omega)]
    exact hdirs k (by omega) hk0
  dest_free := by
    intro e he hDe
    rcases List.mem_append.1 he with h | h
    · have h1 := (hDe.trans (hkeys e h).1).length_le
      simp at h1
    · exact hwf.free_below _ hfree e h hDe
  apart := hapart

/-- C1 (amended): let the asset spec split into two parts whose resolved forms
are the cleaned absolute paths of `A` (destination) and `S` (source), let
`rootfs` be the cleaned absolute path of `R`, and let the state be well formed.
If the source is a regular file or a directory, every node of the source tree
is a directory, a regular file or a symbolic link, the destination `R ++ A`
does not exist, its parents that exist are directories, it does not lie inside
the source tree, and the recursion budget exceeds the depth of the source tree,
then `PrepareAssets` succeeds and the tree at the destination mirrors the
source tree: the same relative paths, the same kind of node at each, for a
directory the permission bits of the source without those of the umask, for a
regular file the same bytes (with the mode of a newly created file), for a
symbolic link the same target text. Every node that existed before is
unchanged. -/
theorem PrepareAssets_mirror (fs : FS) (asset rootfs s0 s1 : Str) (m : List (Str × Str))
    (R A S : CPath) (fuel : Nat) (node : Node)
    (hsplit : SplitList asset = [s0, s1])
    (hroot : rootfs = absPath R)
    (hdest : replacePlaceholders s0 m = absPath A)
    (hsrc : replacePlaceholders s1 m = absPath S)
    (hR : R ≠ []) (hA : A ≠ []) (hS : S ≠ [])
    (hRp : ∀ n ∈ R, PlainName n) (hAp : ∀ n ∈ A, PlainName n) (hSp : ∀ n ∈ S, PlainName n)
    (hwf : fs.WF)
    (hnode : fs.get S = some node)
    (hkind : node.mode.IsDir = true ∨ node.mode.IsRegular = true)
    (hsup : ∀ e ∈ fs.nodes, S <+: e.1 → fs.supported e.1 = true)
    (hfree : fs.get (R ++ A) = none)
    (habove : ∀ k, k < (R ++ A).length → 0 < k →
      fs.get ((R ++ A).take k) = none ∨ fs.isDir ((R ++ A).take k) = true)
    (hapart : ¬ S <+: R ++ A)
    (hfuel : ∀ e ∈ fs.nodes, S <+: e.1 → e.1.length < S.length + fuel) :
    ∃ fs', PrepareAssets fuel [asset] rootfs m fs = (.ok, fs')
      ∧ (∀ r, fs'.get (R ++ A ++ r) = (fs.get (S ++ r)).bind (copyOf fs))
      ∧ (∀ p, fs.get p ≠ none → fs'.get p = fs.get p) := by
  obtain ⟨A', n, rfl⟩ : ∃ A' n, A = A' ++ [n] :=
    ⟨A.dropLast, A.getLast hA, (List.dropLast_append_getLast hA).symm⟩
  have hn : PlainName n := hAp n (by simp)
  have hA'p : ∀ x ∈ A', PlainName x := fun x hx => hAp x (by simp [hx])
  have hPp : ∀ x ∈ R ++ A', PlainName x := by
    intro x hx
    rcases List.mem_append.1 hx with h | h
    · exact hRp x h
    · exact hA'p x h
  have hP : R ++ A' ≠ [] := by simp [hR]
  rw [← List.append_assoc] at hfree habove hapart
  have hval := validateAsset_absPath fs (A' ++ [n]) S hA hS hSp hwf node hnode hkind
  have hjoinDir := Join_Dir_absPath R A' n hR hRp hA'p hn
  have hjoin := Join_absPath R (A' ++ [n]) hR hRp hAp
  rw [← List.append_assoc] at hjoin
  obtain ⟨added1, hmk, hkeys1, hdirs1⟩ := MkdirAllAux_absPath fs 0o755
    ((absPath (R ++ A')).length + 1) (R ++ A') hP
    (by have := length_le_absPath (R ++ A'); omega) hPp
    (fun k hk1 hk2 => by
      have := habove k (by simp only [List.length_append, List.length_singleton] at hk1 ⊢; omega)
        hk2
      rwa [List.take_append_of_le_length hk1] at this)
    (fun k hk1 hk2 hex j hj1 hj2 => by
      have := hwf.take_isDir _ hex j (by rw [List.length_take]; omega)
      rwa [List.take_take, Nat.min_eq_left (by omega)] at this)
  have hset1 := CopySetup.of_mkdirAll fs S (R ++ A') n added1 hS hSp
    (by
      intro x hx
      rcases List.mem_append.1 hx with h | h
      · exact hPp x h
      · rw [List.mem_singleton] at h; exact h ▸ hn)
    hwf (by rw [hnode]; simp) hfree hapart hkeys1 hdirs1
  have hnotadded : ∀ r, ∀ e ∈ added1, e.1 ≠ S ++ r := by
    intro r e he heq
    exact hapart (((List.prefix_append S r).trans (heq ▸ (hkeys1 e he).1)).trans
      (List.prefix_append _ _))
  have hget1 : ∀ r, (fs.append added1).get (S ++ r) = fs.get (S ++ r) :=
    fun r => fs.get_append_of_not_mem added1 _ (hnotadded r)
  have hnode1 : (fs.append added1).get S = some node := by
    have := hget1 []
    rw [List.append_nil] at this
    rw [this, hnode]
  have hfuel1 : ∀ e ∈ (fs.append added1).nodes, S <+: e.1 → e.1.length < S.length + fuel := by
    intro e he hSe
    rcases List.mem_append.1 he with h | h
    · obtain ⟨r, hr⟩ := hSe
      exact absurd hr.symm (hnotadded r e h)
    · exact hfuel e h hSe
  have hcopy := hset1.copyTree_eq fuel node hnode1 hfuel1
  have hsup1 : ∀ p ∈ subtree (fs.append added1) fuel S, (fs.append added1).supported p = true := by
    intro p hp
    obtain ⟨r, rfl⟩ := subtree_under _ fuel S p hp
    have hex := subtree_exists _ fuel S _ hp
    rw [hget1 r] at hex
    obtain ⟨e, he, hk⟩ := (fs.get_ne_none_iff _).1 hex
    have := hsup e he (hk ▸ List.prefix_append S r)
    rw [hk] at this
    unfold FS.supported at this ⊢
    rw [hget1 r]
    exact this
  have hok := copySeq_ok (fs.append added1) S (R ++ A' ++ [n]) _ hsup1
  rw [hok] at hcopy
  rw [← List.append_assoc R A' [n]]
  refine ⟨(fs.append added1).append
    (copySeq (fs.append added1) S (R ++ A' ++ [n]) (subtree (fs.append added1) fuel S)).2,
    ?_, ?_, ?_⟩
  · rw [PrepareAssets_cons]
    simp only [prepareAsset, hsplit, hdest, hsrc, hroot, hval, hjoinDir, MkdirAll, hmk, hjoin,
      hcopy, PrepareAssets]
  · intro r
    cases hgr : fs.get (S ++ r) with
    | none =>
      rw [Option.none_bind, FS.get_append_of_not_mem, FS.get_eq_none_iff]
      · intro e he hk
        exact hset1.dest_free e he (hk ▸ List.prefix_append _ _)
      · intro e he heq
        obtain ⟨q, hq, hk⟩ := copySeq_keys _ S _ _ e he
        obtain ⟨r', rfl⟩ := subtree_under _ fuel S q hq
        have h1 := hk.symm.trans heq
        simp only [List.drop_left, List.append_cancel_left_eq] at h1
        subst h1
        have hex := subtree_exists _ fuel S _ hq
        rw [hget1, hgr] at hex
        exact hex rfl
    | some nd =>
      have hmem : S ++ r ∈ subtree (fs.append added1) fuel S :=
        hset1.subtree_complete fuel S r (List.prefix_refl _) (by rw [hget1, hgr]; simp) hfuel1
      have h1 := copySeq_get (fs.append added1) S (R ++ A' ++ [n]) _
        (fun p hp => subtree_under _ fuel S p hp) hsup1 _ hmem
      rw [List.drop_left, hget1, hgr, Option.some_bind, copyOf_append] at h1
      have hsup2 := hsup1 _ hmem
      unfold FS.supported at hsup2
      rw [hget1, hgr] at hsup2
      have hc : ∃ c, copyOf fs nd = some c := by
        cases nd <;> simp [copyOf, Node.supported] at hsup2 ⊢
      obtain ⟨c, hc⟩ := hc
      rw [Option.some_bind, hc]
      rw [hc] at h1
      exact findNode_append_of_some _ _ _ _ h1
  · intro p hp
    rw [FS.get_append_not_under _ _ (R ++ A' ++ [n]) p (fun e he => by
        obtain ⟨q, _, hk⟩ := copySeq_keys _ S _ _ e he
        rw [hk]; exact List.prefix_append _ _)
      (fun hDp => by
        obtain ⟨e, he, hk⟩ := (fs.get_ne_none_iff _).1 hp
        exact hwf.free_below _ hfree e he (hk ▸ hDp))]
    exact fs.get_append_of_exists added1 p (fun e he => (hkeys1 e he).2.2) hp

/-- C1, as stated, fails: the spec "/rootfs:/home/user/build/app" with the root
filesystem "/tmp" splits into two absolute paths and its source is a directory,
but the destination "/tmp/rootfs" exists already in the example state, `Mkdir`
fails with `EEXIST` on the root of the tree, and `PrepareAssets` returns
`CopyFailed` whatever the recursion budget. -/
theorem PrepareAssets_fails_on_existing_destination :
    ¬ (∀ (asset rootfs : Str) (m : List (Str × Str)) (fs : FS) (s0 s1 : Str),
        SplitList asset = [s0, s1] →
        IsAbs (replacePlaceholders s0 m) = true → IsAbs (replacePlaceholders s1 m) = true →
        (∃ fi, Stat (replacePlaceholders s1 m) fs = .ok fi
          ∧ (fi.Mode.IsDir = true ∨ fi.Mode.IsRegular = true)) →
        ∃ N, ∀ fuel, N ≤ fuel → (PrepareAssets fuel [asset] rootfs m fs).1 = .ok) := by
  intro h
  obtain ⟨N, hN⟩ := h "/rootfs:/home/user/build/app".toList "/tmp".toList [] exampleFS
    "/rootfs".toList "/home/user/build/app".toList (by decide) (by decide) (by decide)
    ⟨⟨"app".toList, ⟨.dir, 0o755⟩⟩, by decide, Or.inl (by decide)⟩
  have hc : PrepareAssets (N + 1) ["/rootfs:/home/user/build/app".toList] "/tmp".toList []
      exampleFS
      = (.err (.CopyFailed "/rootfs:/home/user/build/app".toList
          (.pathError .mkdir "/tmp/rootfs".toList .eexist)), exampleFS) := rfl
  have := hN (N + 1) (by omega)
  rw [hc] at this
  cases this

/-- The end-to-end example of the specification: the asset
"/opt/app:/home/user/build/app" with the root filesystem "/tmp/rootfs". After
`PrepareAssets`, "/tmp/rootfs/opt/app" mirrors the source; in particular
`bin/run` has the same bytes and `latest` is a symbolic link to `run`. -/
theorem PrepareAssets_mirror_witness :
    (∃ fs', PrepareAssets 8 ["/opt/app:/home/user/build/app".toList] "/tmp/rootfs".toList []
        exampleFS = (.ok, fs')
      ∧ (∀ r, fs'.get (["tmp".toList, "rootfs".toList] ++ ["opt".toList, "app".toList] ++ r)
          = (exampleFS.get (["home".toList, "user".toList, "build".toList, "app".toList] ++ r)).bind
              (copyOf exampleFS))
      ∧ (∀ p, exampleFS.get p ≠ none → fs'.get p = exampleFS.get p))
    ∧ (PrepareAssets 8 ["/opt/app:/home/user/build/app".toList] "/tmp/rootfs".toList []
        exampleFS).2.get
          ["tmp".toList, "rootfs".toList, "opt".toList, "app".toList, "bin".toList, "run".toList]
        = some (.file 0o644 [127, 69, 76, 70])
    ∧ (PrepareAssets 8 ["/opt/app:/home/user/build/app".toList] "/tmp/rootfs".toList []
        exampleFS).2.get
          ["tmp".toList, "rootfs".toList, "opt".toList, "app".toList, "latest".toList]
        = some (.symlink "run".toList) :=
  ⟨PrepareAssets_mirror exampleFS "/opt/app:/home/user/build/app".toList "/tmp/rootfs".toList
    "/opt/app".toList "/home/user/build/app".toList []
    ["tmp".toList, "rootfs".toList] ["opt".toList, "app".toList]
    ["home".toList, "user".toList, "build".toList, "app".toList] 8 (.dir 0o755)
    (by decide) (by decide) (by decide) (by decide) (by decide) (by decide) (by decide)
    (by decide) (by decide) (by decide) (by decide) (by decide) (Or.inl (by decide))
    (by decide) (by decide) (by decide) (by decide) (by decide),
   by decide, by decide⟩

/-! ## The recursion budgets -/

theorem Mkdir_res (name : Str) (perm : Nat) (fs : FS) :
    (Mkdir name perm fs).1 = .ok ∨ ∃ e, (Mkdir name perm fs).1 = .err e := by
  unfold Mkdir
  split
  · exact Or.inr ⟨_, rfl⟩
  · exact Or.inr ⟨_, rfl⟩
  · exact Or.inl rfl

theorem parentEnd_le (path : Str) : parentEnd path ≤ path.length := by
  unfold parentEnd
  calc _ ≤ (path.reverse.dropWhile (fun c => c = '/')).length :=
        (List.dropWhile_sublist _).length_le
    _ ≤ path.reverse.length := (List.dropWhile_sublist _).length_le
    _ = path.length := List.length_reverse _

/-- The recursion of `MkdirAll` on the parent path never uses up a budget
that exceeds the length of the path. -/
theorem MkdirAllAux_fuel (perm : Nat) :
    ∀ (fuel : Nat) (path : Str) (fs : FS), path.length < fuel →
      (MkdirAllAux fuel path perm fs).1 ≠ .outOfFuel := by
  intro fuel
  induction fuel with
  | zero => intro path fs h; omega
  | succ fuel ih =>
    intro path fs hlen
    rw [MkdirAllAux]
    cases hstat : Stat path fs with
    | ok dir =>
      simp only
      split <;> simp
    | error e =>
      simp only
      have hparent : (if parentEnd path > 1
          then MkdirAllAux fuel (path.take (parentEnd path - 1)) perm fs
          else (.ok, fs)).1 ≠ .outOfFuel := by
        split
        · apply ih
          have := parentEnd_le path
          rw [List.length_take]
          omega
        · simp
      rcases hp : (if parentEnd path > 1
          then MkdirAllAux fuel (path.take (parentEnd path - 1)) perm fs
          else (.ok, fs)) with ⟨r, fs1⟩
      rw [hp] at hparent
      cases r with
      | ok =>
        simp only
        rcases hm : Mkdir path perm fs1 with ⟨r2, fs2⟩
        have hr2 := Mkdir_res path perm fs1
        rw [hm] at hr2
        cases r2 with
        | ok => simp
        | err e2 =>
          simp only
          split
          · split <;> simp
          · simp
        | panic => simp at hr2
        | outOfFuel => simp at hr2
      | err e1 => simp
      | panic => simp
      | outOfFuel => exact absurd rfl hparent

/-- `MkdirAll` never ends with its recursion budget used up. -/
theorem MkdirAll_fuel (path : Str) (perm : Nat) (fs : FS) :
    (MkdirAll path perm fs).1 ≠ .outOfFuel :=
  MkdirAllAux_fuel perm _ path fs (Nat.lt_succ_self _)

/-- Every source tree has a depth: a budget for the tree walk that exceeds
it. -/
theorem exists_walk_fuel (fs : FS) (S : CPath) :
    ∃ N, ∀ fuel, N ≤ fuel → ∀ e ∈ fs.nodes, S <+: e.1 → e.1.length < S.length + fuel := by
  refine ⟨(fs.nodes.map (fun e => e.1.length)).sum + 1, ?_⟩
  intro fuel hfuel e he _
  have : e.1.length ≤ (fs.nodes.map (fun e => e.1.length)).sum :=
    List.single_le_sum (fun _ _ => Nat.zero_le _) _ (List.mem_map.2 ⟨e, he, rfl⟩)
  omega

/-! ## Following a symbolic link -/

theorem FS.WF.isDir_dropLast {fs : FS} (hwf : fs.WF) (cur : CPath)
    (h : fs.isDir cur = true) : fs.isDir cur.dropLast = true := by
  by_cases hc : cur = []
  · subst hc
    exact h
  · have hsplit := List.dropLast_append_getLast hc
    apply hwf.ancestor [cur.getLast hc] cur.dropLast (by simp)
    rw [hsplit]
    exact fs.isDir_ne_none cur h

theorem FS.WF.link_ne_nil {fs : FS} (hwf : fs.WF) (p : CPath) (t : Str)
    (h : fs.get p = some (.symlink t)) : t ≠ [] := by
  intro ht
  exact (hwf.2 (p, .symlink t) (fs.get_mem p _ h)).2.2 (by rw [ht])

/-- Lookup with and without following the last element, in a well-formed
state, from a directory: where the lookup that does not follow ends on a
symbolic link, the lookup that follows goes on with the target text of that
link from its directory; a link met on the way is followed by both. -/
theorem lookupComps_follow (fs : FS) (hwf : fs.WF) (comps : List Str) :
    ∀ cur : CPath, fs.isDir cur = true →
      (∀ p t, lookupComps fs false cur comps = .done (.ok (p, some (.symlink t))) →
        t ≠ [] ∧ lookupComps fs true cur comps
          = .jump (if IsAbs t then [] else p.dropLast) (splitOn '/' t))
      ∧ (∀ a b, lookupComps fs false cur comps = .jump a b →
        lookupComps fs true cur comps = .jump a b ∧ fs.isDir a = true) := by
  induction comps with
  | nil =>
    intro cur hcur
    obtain ⟨perm, hperm⟩ := (fs.isDir_iff cur).1 hcur
    constructor
    · intro p t h
      simp only [lookupComps, Lookup.done.injEq, Except.ok.injEq, Prod.mk.injEq] at h
      rw [hperm] at h
      simp at h
    · intro a b h
      simp [lookupComps] at h
  | cons c rest ih =>
    intro cur hcur
    by_cases hskip : c = [] ∨ c = ['.']
    · have e : ∀ follow, lookupComps fs follow cur (c :: rest) = lookupComps fs follow cur rest := by
        intro follow
        rw [lookupComps, if_pos hskip]
      rw [e false, e true]
      exact ih cur hcur
    · by_cases hup : c = ['.', '.']
      · have e : ∀ follow, lookupComps fs follow cur (c :: rest)
            = lookupComps fs follow cur.dropLast rest := by
          intro follow
          rw [lookupComps, if_neg hskip, if_pos hup]
        rw [e false, e true]
        exact ih cur.dropLast (hwf.isDir_dropLast cur hcur)
      · cases hget : fs.get (cur ++ [c]) with
        | none =>
          have e : lookupComps fs false cur (c :: rest)
              = if rest = [] then .done (.ok (cur ++ [c], none))
                else .done (.error .enoent) := by
            rw [lookupComps, if_neg hskip, if_neg hup]
            simp only [hget]
          rw [e]
          constructor
          · intro p t h
            split at h <;> simp at h
          · intro a b h
            split at h <;> simp at h
        | some node =>
          cases node with
          | dir perm =>
            have e : ∀ follow, lookupComps fs follow cur (c :: rest)
                = lookupComps fs follow (cur ++ [c]) rest := by
              intro follow
              rw [lookupComps, if_neg hskip, if_neg hup]
              simp only [hget]
            rw [e false, e true]
            exact ih (cur ++ [c]) ((fs.isDir_iff _).2 ⟨perm, hget⟩)
          | file perm data =>
            have e : lookupComps fs false cur (c :: rest)
                = if rest = [] then .done (.ok (cur ++ [c], some (.file perm data)))
                  else .done (.error .enotdir) := by
              rw [lookupComps, if_neg hskip, if_neg hup]
              simp only [hget]
            rw [e]
            constructor
            · intro p t h
              split at h <;> simp at h
            · intro a b h
              split at h <;> simp at h
          | special k perm =>
            have e : lookupComps fs false cur (c :: rest)
                = if rest = [] then .done (.ok (cur ++ [c], some (.special k perm)))
                  else .done (.error .enotdir) := by
              rw [lookupComps, if_neg hskip, if_neg hup]
              simp only [hget]
            rw [e]
            constructor
            · intro p t h
              split at h <;> simp at h
            · intro a b h
              split at h <;> simp at h
          | symlink t0 =>
            have ht0 : t0 ≠ [] := hwf.link_ne_nil _ _ hget
            have e : ∀ follow, lookupComps fs follow cur (c :: rest)
                = if rest = [] ∧ follow = false
                  then .done (.ok (cur ++ [c], some (.symlink t0)))
                  else .jump (if IsAbs t0 then [] else cur) (splitOn '/' t0 ++ rest) := by
              intro follow
              rw [lookupComps, if_neg hskip, if_neg hup]
              simp only [hget, ht0, if_false]
            rw [e false, e true]
            by_cases hrest : rest = []
            · subst hrest
              constructor
              · intro p t h
                simp only [and_self, if_true, Lookup.done.injEq, Except.ok.injEq, Prod.mk.injEq,
                  Option.some.injEq, Node.symlink.injEq] at h
                obtain ⟨hp, ht⟩ := h
                subst hp; subst ht
                refine ⟨ht0, ?_⟩
                simp
              · intro a b h
                simp at h
            · constructor
              · intro p t h
                simp [hrest] at h
              · intro a b h
                simp only [hrest, false_and, if_false, Lookup.jump.injEq] at h
                obtain ⟨ha, hb⟩ := h
                subst ha; subst hb
                refine ⟨by simp [hrest], ?_⟩
                split
                · exact hwf.1
                · exact hcur

/-- In a well-formed state, when the resolution that does not follow the last
element ends on a symbolic link, the resolution that follows it goes on with
the target text of that link from its directory. -/
theorem resolveFrom_follow (fs : FS) (hwf : fs.WF) :
    ∀ (fuel : Nat) (cur : CPath) (comps : List Str) (p : CPath) (t : Str),
      fs.isDir cur = true →
      resolveFrom fs false fuel cur comps = .ok (p, some (.symlink t)) →
      t ≠ [] ∧ ∃ fuel', fuel' ≤ fuel
        ∧ resolveFrom fs true fuel cur comps = followLink fs fuel' p t := by
  intro fuel
  induction fuel with
  | zero =>
    intro cur comps p t hcur h
    obtain ⟨h1, h2⟩ := lookupComps_follow fs hwf comps cur hcur
    rw [resolveFrom] at h
    cases hl : lookupComps fs false cur comps with
    | done r =>
      rw [hl] at h
      simp only at h
      subst h
      obtain ⟨ht, hj⟩ := h1 p t hl
      refine ⟨ht, 0, by omega, ?_⟩
      rw [resolveFrom, hj]
      rfl
    | jump a b =>
      rw [hl] at h
      simp at h
  | succ fuel ih =>
    intro cur comps p t hcur h
    obtain ⟨h1, h2⟩ := lookupComps_follow fs hwf comps cur hcur
    rw [resolveFrom] at h
    cases hl : lookupComps fs false cur comps with
    | done r =>
      rw [hl] at h
      simp only at h
      subst h
      obtain ⟨ht, hj⟩ := h1 p t hl
      refine ⟨ht, fuel + 1, by omega, ?_⟩
      rw [resolveFrom, hj]
      rfl
    | jump a b =>
      rw [hl] at h
      simp only at h
      obtain ⟨hj, ha⟩ := h2 a b hl
      obtain ⟨ht, fuel', hle, hr⟩ := ih a b p t ha h
      refine ⟨ht, fuel', by omega, ?_⟩
      rw [resolveFrom, hj]
      exact hr

theorem validateAsset_of_resolve_error (ACIAsset localAsset : Str) (fs : FS) (errno : Errno)
    (hA : IsAbs ACIAsset = true) (hL : IsAbs localAsset = true)
    (h : fs.resolve localAsset true = .error errno) :
    validateAsset ACIAsset localAsset fs
      = some (.SourceNotFound localAsset (.pathError .stat localAsset errno)) := by
  simp [validateAsset, hA, hL, Stat, h]

theorem validateAsset_of_resolve_none (ACIAsset localAsset : Str) (fs : FS) (q : CPath)
    (hA : IsAbs ACIAsset = true) (hL : IsAbs localAsset = true)
    (h : fs.resolve localAsset true = .ok (q, none)) :
    validateAsset ACIAsset localAsset fs
      = some (.SourceNotFound localAsset (.pathError .stat localAsset .enoent)) := by
  simp [validateAsset, hA, hL, Stat, h]

theorem validateAsset_of_resolve_some (ACIAsset localAsset : Str) (fs : FS) (q : CPath)
    (node : Node) (hA : IsAbs ACIAsset = true) (hL : IsAbs localAsset = true)
    (h : fs.resolve localAsset true = .ok (q, some node)) :
    validateAsset ACIAsset localAsset fs
      = if node.mode.IsDir || node.mode.IsRegular then none
        else some (.UnsupportedSourceType (basename localAsset)) := by
  simp [validateAsset, hA, hL, Stat, h, FileInfo.Mode, FileInfo.Name]

theorem copyTreeFn_symlink (src dest path : Str) (info : FileInfo) (fs : FS) (p q : CPath)
    (t : Str) (hlen : src.length ≤ path.length) (hsym : info.Mode.isSymlink = true)
    (hsrc : fs.resolve path false = .ok (p, some (.symlink t))) (ht : t ≠ [])
    (hdst : fs.resolve (Join dest (path.drop src.length)) false = .ok (q, none)) :
    copyTreeFn src dest path (some info) none fs = (.ok, fs.put q (.symlink t)) := by
  have hkind : info.mode.kind = Kind.symlink := by
    simpa [FileInfo.Mode, FileMode.isSymlink] using hsym
  have hnot : ¬ path.length < src.length := by omega
  simp only [copyTreeFn, hnot, if_false, FileInfo.Mode, FileMode.IsDir, FileMode.IsRegular,
    FileMode.isSymlink, hkind]
  rw [if_neg (by simp), if_neg (by simp), if_pos (by simp)]
  simp only [copySymlink, Readlink_of_resolve fs _ _ t hsrc]
  exact Symlink_of_resolve fs t _ q ht hdst

/-- C5 (amended): let the absolute source path name a symbolic link, at the
canonical path `p` with target text `t`, in a well-formed state. `Lstat`
reports the link, while the resolution that `Stat` uses follows it: it looks
up `t` from the directory of the link. `validateAsset` (with an absolute
destination) accepts the asset exactly when this finds a regular file or a
directory, and rejects it with `SourceNotFound` when it finds nothing (a
dangling link) or fails. When the destination path names nothing yet, in an
existing directory, `copyTree` on this source succeeds and the state afterwards
is the state before with a symbolic link with target text `t` written at the
destination; the callback of `copyTree` does the same for every symbolic link
it is handed inside a directory. -/
theorem validateAsset_root_symlink (ACIAsset localAsset : Str) (fs : FS) (p : CPath) (t : Str)
    (hwf : fs.WF) (hA : IsAbs ACIAsset = true) (hL : IsAbs localAsset = true)
    (hsrc : fs.resolve localAsset false = .ok (p, some (.symlink t))) :
    (∃ fi, Lstat localAsset fs = .ok fi ∧ fi.Mode.isSymlink = true)
    ∧ (∃ fuel, fuel ≤ 40 ∧ fs.resolve localAsset true = followLink fs fuel p t)
    ∧ (validateAsset ACIAsset localAsset fs = none ↔
        ∃ q node, fs.resolve localAsset true = .ok (q, some node)
          ∧ (node.mode.IsDir = true ∨ node.mode.IsRegular = true))
    ∧ (∀ q, fs.resolve localAsset true = .ok (q, none) →
        validateAsset ACIAsset localAsset fs
          = some (.SourceNotFound localAsset (.pathError .stat localAsset .enoent)))
    ∧ (∀ errno, fs.resolve localAsset true = .error errno →
        validateAsset ACIAsset localAsset fs
          = some (.SourceNotFound localAsset (.pathError .stat localAsset errno)))
    ∧ (∀ fuel dest q, fs.resolve (Join dest []) false = .ok (q, none) →
        copyTree (fuel + 1) localAsset dest fs = (.ok, fs.put q (.symlink t))
        ∧ (fs.put q (.symlink t)).get q = some (.symlink t)
        ∧ ∀ r, r ≠ q → (fs.put q (.symlink t)).get r = fs.get r)
    ∧ (∀ (src dest path : Str) (info : FileInfo) (fs1 : FS) (p1 q : CPath) (t1 : Str),
        src.length ≤ path.length → info.Mode.isSymlink = true →
        fs1.resolve path false = .ok (p1, some (.symlink t1)) → t1 ≠ [] →
        fs1.resolve (Join dest (path.drop src.length)) false = .ok (q, none) →
        copyTreeFn src dest path (some info) none fs1 = (.ok, fs1.put q (.symlink t1))) := by
  have hne : localAsset ≠ [] := by
    intro h
    rw [h] at hL
    simp [IsAbs] at hL
  have hlstat := Lstat_of_resolve fs localAsset p _ hsrc
  have hfollow : t ≠ [] ∧ ∃ fuel, fuel ≤ 40
      ∧ fs.resolve localAsset true = followLink fs fuel p t := by
    unfold FS.resolve at hsrc ⊢
    rw [if_neg hne, hL] at hsrc ⊢
    exact resolveFrom_follow fs hwf 40 [] _ p t hwf.1 hsrc
  refine ⟨⟨_, hlstat, by simp [FileInfo.Mode, Node.mode, FileMode.isSymlink]⟩, hfollow.2,
    ?_, ?_, ?_, ?_, ?_⟩
  · cases hr : fs.resolve localAsset true with
    | error errno =>
      rw [validateAsset_of_resolve_error ACIAsset localAsset fs errno hA hL hr]
      simp
    | ok r =>
      obtain ⟨q, found⟩ := r
      cases found with
      | none =>
        rw [validateAsset_of_resolve_none ACIAsset localAsset fs q hA hL hr]
        simp
      | some node =>
        rw [validateAsset_of_resolve_some ACIAsset localAsset fs q node hA hL hr]
        constructor
        · intro h
          refine ⟨q, node, rfl, ?_⟩
          cases h1 : node.mode.IsDir <;> cases h2 : node.mode.IsRegular <;> simp [h1, h2] at h ⊢
        · rintro ⟨q1, node1, heq, hk⟩
          simp only [Except.ok.injEq, Prod.mk.injEq, Option.some.injEq] at heq
          obtain ⟨_, rfl⟩ := heq
          rcases hk with hk | hk <;> simp [hk]
  · intro q hq
    exact validateAsset_of_resolve_none ACIAsset localAsset fs q hA hL hq
  · intro errno he
    exact validateAsset_of_resolve_error ACIAsset localAsset fs errno hA hL he
  · intro fuel dest q hq
    refine ⟨?_, fs.get_put_self q _, fun r hr => fs.get_put_of_ne q r _ (Ne.symm hr)⟩
    rw [copyTree_not_dir fuel localAsset dest fs _ hlstat
      (by simp [FileInfo.IsDir, FileMode.IsDir, Node.mode])]
    exact copyTreeFn_symlink localAsset dest localAsset _ fs p q t (le_refl _)
      (by simp [FileInfo.Mode, Node.mode, FileMode.isSymlink]) hsrc hfollow.1
      (by simpa using hq)
  · intro src dest path info fs1 p1 q t1 hlen hsym hs ht hd
    exact copyTreeFn_symlink src dest path info fs1 p1 q t1 hlen hsym hs ht hd

/-- In the example state the symbolic link "/home/user/link", whose target
text "build/app/bin/run" leads to a regular file, is accepted as a source,
and its copy to "/tmp/rootfs/run" is a symbolic link with the same target
text; the link "/home/user/gone" dangles and is rejected. -/
theorem validateAsset_root_symlink_witness :
    ((∃ fi, Lstat "/home/user/link".toList exampleFS = .ok fi ∧ fi.Mode.isSymlink = true)
    ∧ (∃ fuel, fuel ≤ 40 ∧ exampleFS.resolve "/home/user/link".toList true
        = followLink exampleFS fuel ["home".toList, "user".toList, "link".toList]
            "build/app/bin/run".toList)
    ∧ (validateAsset "/opt/run".toList "/home/user/link".toList exampleFS = none ↔
        ∃ q node, exampleFS.resolve "/home/user/link".toList true = .ok (q, some node)
          ∧ (node.mode.IsDir = true ∨ node.mode.IsRegular = true))
    ∧ (∀ q, exampleFS.resolve "/home/user/link".toList true = .ok (q, none) →
        validateAsset "/opt/run".toList "/home/user/link".toList exampleFS
          = some (.SourceNotFound "/home/user/link".toList
              (.pathError .stat "/home/user/link".toList .enoent)))
    ∧ (∀ errno, exampleFS.resolve "/home/user/link".toList true = .error errno →
        validateAsset "/opt/run".toList "/home/user/link".toList exampleFS
          = some (.SourceNotFound "/home/user/link".toList
              (.pathError .stat "/home/user/link".toList errno)))
    ∧ (∀ fuel dest q, exampleFS.resolve (Join dest []) false = .ok (q, none) →
        copyTree (fuel + 1) "/home/user/link".toList dest exampleFS
          = (.ok, exampleFS.put q (.symlink "build/app/bin/run".toList))
        ∧ (exampleFS.put q (.symlink "build/app/bin/run".toList)).get q
          = some (.symlink "build/app/bin/run".toList)
        ∧ ∀ r, r ≠ q →
          (exampleFS.put q (.symlink "build/app/bin/run".toList)).get r = exampleFS.get r)
    ∧ (∀ (src dest path : Str) (info : FileInfo) (fs1 : FS) (p1 q : CPath) (t1 : Str),
        src.length ≤ path.length → info.Mode.isSymlink = true →
        fs1.resolve path false = .ok (p1, some (.symlink t1)) → t1 ≠ [] →
        fs1.resolve (Join dest (path.drop src.length)) false = .ok (q, none) →
        copyTreeFn src dest path (some info) none fs1 = (.ok, fs1.put q (.symlink t1))))
    ∧ exampleFS.resolve "/home/user/link".toList true
        = .ok (["home".toList, "user".toList, "build".toList, "app".toList, "bin".toList,
            "run".toList], some (.file 0o755 [127, 69, 76, 70]))
    ∧ validateAsset "/opt/run".toList "/home/user/link".toList exampleFS = none
    ∧ copyTree 1 "/home/user/link".toList "/tmp/rootfs/run".toList exampleFS
        = (.ok, exampleFS.put ["tmp".toList, "rootfs".toList, "run".toList]
            (.symlink "build/app/bin/run".toList))
    ∧ validateAsset "/opt/gone".toList "/home/user/gone".toList exampleFS
        = some (.SourceNotFound "/home/user/gone".toList
            (.pathError .stat "/home/user/gone".toList .enoent)) :=
  ⟨validateAsset_root_symlink "/opt/run".toList "/home/user/link".toList exampleFS
    ["home".toList, "user".toList, "link".toList] "build/app/bin/run".toList
    (by decide) (by decide) (by decide) (by decide),
   by decide, by decide, by decide, by decide⟩
end Goaci
